import Mathlib

/-!
Verification of the tsdepscanner (bardcheck/bardscan) dependency vulnerability
scanner against its natural-language specification.

The development shallowly embeds the pure cores of the scanner's TypeScript
modules:

- severity/confidence enums and ranks (packages/core/src/types.ts, utils.ts)
- CVSS score banding (osv-client: mapSeverity, cvssToSeverity)
- the threshold predicate shouldFail and the CLI exit decision
  (packages/core/src/utils.ts shouldFail; packages/cli/src/index.ts)
- finding synthesis and report summary construction (runScan, scan.ts)
- the deterministic stable sort of findings (report.ts sortFindings,
  utils.ts stableSortBy)
- the batched OSV lookup result assembly (osv-client batchQuery/fetchBatch)
- the npm package-lock v2+ entry pass (lock-parser.ts parseNpmLock,
  getPackageNameFromPath, isDirectPackagePath)
- evidence specifier normalization (evidence.ts normalizePackageName)
- the bounded-concurrency mapper (osv-client mapWithConcurrency), modelled as
  a small-step transition system over worker states.

File and network I/O, clocks and caches are abstracted as explicit inputs to
the embedded functions; every embedded definition is executable.

JavaScript strings are modelled as `List Char`; the JS `<` comparison on
strings is the lexicographic order on code units, embedded as `lexLt`.
-/

namespace TsDep

/-- Severity enum from packages/core/src/types.ts. -/
inductive Severity where
  | critical
  | high
  | medium
  | low
  | unknown
deriving DecidableEq, Repr

/-- Confidence enum from packages/core/src/types.ts. -/
inductive Confidence where
  | high
  | medium
  | low
  | unknown
deriving DecidableEq, Repr

/-- Severity-source provenance tag from packages/core/src/types.ts. -/
inductive SeveritySource where
  | osv_cvss
  | osv_label
  | osv_detail_cvss
  | osv_detail_label
  | alias_cvss
  | ghsa_cvss
  | ghsa_label
  | policy_override
  | unknown
deriving DecidableEq, Repr

/-- UnknownReason from packages/core/src/types.ts. -/
inductive UnknownReason where
  | missing_score
  | lookup_failed
deriving DecidableEq, Repr

/-- Lookup source of a finding (OsvLookupResult.source in osv-client). -/
inductive LookupSource where
  | osv
  | cache
  | unknown
deriving DecidableEq, Repr

/-- The fail-on threshold: a severity or the literal none
(type FailOn in packages/cli/src/index.ts). -/
inductive FailOn where
  | critical
  | high
  | medium
  | low
  | none
deriving DecidableEq, Repr

/-- Severity ranks as in SEVERITY_RANK (packages/core/src/utils.ts) restricted
to severity strings: critical 5, high 4, medium 3, low 2, unknown 1. -/
def severityRank : Severity → Nat
  | .critical => 5
  | .high => 4
  | .medium => 3
  | .low => 2
  | .unknown => 1

/-- SEVERITY_RANK on fail-on strings (utils.ts): the severity ranks plus
none mapped to 0. -/
def failOnRank : FailOn → Nat
  | .critical => 5
  | .high => 4
  | .medium => 3
  | .low => 2
  | .none => 0

/-- Embeds shouldFail from packages/core/src/utils.ts:
SEVERITY_RANK[findingSeverity] >= SEVERITY_RANK[failOn]. -/
def shouldFail (failOn : FailOn) (findingSeverity : Severity) : Bool :=
  failOnRank failOn ≤ severityRank findingSeverity

/-! ## CVSS score banding (claim C7)

The scanner converts numeric CVSS scores to severities in four places:
the OSV batch branch and OSV detail branch of mapSeverity
(src/unnamed/part_014 lines 462-485), the numeric branch of the earlier
client's mapSeverity (src/unnamed/part_013 lines 118-137), and
cvssToSeverity (part_014 lines 494-499) used for NVD alias scores and for
GHSA cvss scores. Scores are embedded as rationals. -/

/-- Embeds cvssToSeverity from src/unnamed/part_014 lines 494-499. -/
def cvssToSeverity (value : ℚ) : Severity :=
  if 9 ≤ value then .critical
  else if 7 ≤ value then .high
  else if 4 ≤ value then .medium
  else .low

/-- The context tag of mapSeverity in part_014: the OSV batch path or the
OSV detail path. -/
inductive MapContext where
  | osv
  | osv_detail
deriving DecidableEq, Repr

/-- Embeds withSource from src/unnamed/part_014 lines 487-492. -/
def withSource (source : MapContext) (kind : Bool) : SeveritySource :=
  match source, kind with
  | .osv, true => .osv_cvss
  | .osv, false => .osv_label
  | .osv_detail, true => .osv_detail_cvss
  | .osv_detail, false => .osv_detail_label

/-- Embeds the numeric (parsed CVSS score) branch of mapSeverity from
src/unnamed/part_014 lines 470-473, for a score that parsed to a number.
The Boolean `true` passed to withSource selects the cvss kind. -/
def mapSeverityScore (source : MapContext) (value : ℚ) :
    Severity × SeveritySource :=
  if 9 ≤ value then (.critical, withSource source true)
  else if 7 ≤ value then (.high, withSource source true)
  else if 4 ≤ value then (.medium, withSource source true)
  else (.low, withSource source true)

/-- Embeds the numeric branch of mapSeverity from src/unnamed/part_013
lines 123-126 (the earlier OSV client, which returns a bare severity). -/
def mapSeverityScore13 (value : ℚ) : Severity :=
  if 9 ≤ value then .critical
  else if 7 ≤ value then .high
  else if 4 ≤ value then .medium
  else .low

/-- C7: CVSS score to severity conversion maps every numeric score s as
s >= 9.0 to critical, 7.0 <= s < 9.0 to high, 4.0 <= s < 7.0 to medium,
s < 4.0 to low; in particular 9.0 maps to critical, 8.9 and 7.0 to high,
6.9 and 4.0 to medium, 3.9 to low; and the same banding is used uniformly
by the OSV batch branch, the OSV detail branch, the earlier client's
mapSeverity, and cvssToSeverity (which serves the NVD alias and GHSA
fallbacks). -/
theorem C7_cvss_banding (s : ℚ) (ctx : MapContext) :
    ((9 ≤ s → cvssToSeverity s = .critical) ∧
     (7 ≤ s ∧ s < 9 → cvssToSeverity s = .high) ∧
     (4 ≤ s ∧ s < 7 → cvssToSeverity s = .medium) ∧
     (s < 4 → cvssToSeverity s = .low)) ∧
    cvssToSeverity (9 : ℚ) = .critical ∧
    cvssToSeverity ((89 : ℚ) / 10) = .high ∧
    cvssToSeverity (7 : ℚ) = .high ∧
    cvssToSeverity ((69 : ℚ) / 10) = .medium ∧
    cvssToSeverity (4 : ℚ) = .medium ∧
    cvssToSeverity ((39 : ℚ) / 10) = .low ∧
    (mapSeverityScore ctx s).1 = cvssToSeverity s ∧
    (mapSeverityScore ctx s).2 = withSource ctx true ∧
    mapSeverityScore13 s = cvssToSeverity s := by
  refine ⟨⟨?_, ?_, ?_, ?_⟩, ?_, ?_, ?_, ?_, ?_, ?_, ?_, ?_, ?_⟩
  · intro h
    simp [cvssToSeverity, h]
  · rintro ⟨h7, h9⟩
    simp [cvssToSeverity, h7, not_le.mpr h9]
  · rintro ⟨h4, h7⟩
    have h9 : ¬ (9 : ℚ) ≤ s := not_le.mpr (lt_trans h7 (by norm_num))
    simp [cvssToSeverity, h4, not_le.mpr h7, h9]
  · intro h
    have h7 : ¬ (7 : ℚ) ≤ s := not_le.mpr (lt_trans h (by norm_num))
    have h9 : ¬ (9 : ℚ) ≤ s := not_le.mpr (lt_trans h (by norm_num))
    simp [cvssToSeverity, not_le.mpr h, h7, h9]
  · simp [cvssToSeverity]
  · norm_num [cvssToSeverity]
  · norm_num [cvssToSeverity]
  · norm_num [cvssToSeverity]
  · norm_num [cvssToSeverity]
  · norm_num [cvssToSeverity]
  · by_cases h9 : (9 : ℚ) ≤ s
    · simp [mapSeverityScore, cvssToSeverity, h9]
    · by_cases h7 : (7 : ℚ) ≤ s
      · simp [mapSeverityScore, cvssToSeverity, h9, h7]
      · by_cases h4 : (4 : ℚ) ≤ s
        · simp [mapSeverityScore, cvssToSeverity, h9, h7, h4]
        · simp [mapSeverityScore, cvssToSeverity, h9, h7, h4]
  · by_cases h9 : (9 : ℚ) ≤ s
    · simp [mapSeverityScore, h9]
    · by_cases h7 : (7 : ℚ) ≤ s
      · simp [mapSeverityScore, h9, h7]
      · by_cases h4 : (4 : ℚ) ≤ s
        · simp [mapSeverityScore, h9, h7, h4]
        · simp [mapSeverityScore, h9, h7, h4]
  · unfold mapSeverityScore13 cvssToSeverity
    rfl

/-- Witness for C7: instantiates the banding theorem at score 8.9 and the
OSV batch context, discharging the band hypotheses by norm_num. -/
theorem C7_cvss_banding_witness :
    cvssToSeverity ((89 : ℚ) / 10) = .high ∧
    (mapSeverityScore .osv ((89 : ℚ) / 10)).1 = cvssToSeverity ((89 : ℚ) / 10) ∧
    ((7 : ℚ) ≤ (89 : ℚ) / 10 ∧ (89 : ℚ) / 10 < 9) := by
  have h := C7_cvss_banding ((89 : ℚ) / 10) .osv
  refine ⟨h.2.2.1, h.2.2.2.2.2.2.2.1, by norm_num⟩

/-! ## JS strings and the stable sort

JavaScript compares strings with `<`/`>` lexicographically on code units.
`lexLt` embeds that comparison on `List Char`. `stableSortBy`
(packages/core/src/utils.ts lines 64-75) decorates each element with its
index, sorts by the comparator (key ascending, original index as tie-break)
and strips the index. Since the decorated comparator is a linear order
(indices are distinct), every comparison sort computes the same, unique
sorted permutation; the embedding uses insertion sort. -/

/-- Lexicographic code-unit comparison, the JS `ka < kb` on strings. -/
def lexLt : List Char → List Char → Bool
  | [], [] => false
  | [], _ :: _ => true
  | _ :: _, [] => false
  | a :: as, b :: bs =>
    if a < b then true
    else if b < a then false
    else lexLt as bs

/-- The decorated comparator of stableSortBy: key ascending, then original
index ascending (utils.ts lines 67-72). -/
def keyIdxLe (key : α → List Char) (a b : Nat × α) : Bool :=
  if lexLt (key a.2) (key b.2) then true
  else if lexLt (key b.2) (key a.2) then false
  else decide (a.1 ≤ b.1)

/-- Ordered insertion for a Boolean `le`. -/
def insertLe (le : α → α → Bool) (a : α) : List α → List α
  | [] => [a]
  | b :: bs => if le a b then a :: b :: bs else b :: insertLe le a bs

/-- Insertion sort for a Boolean `le`. -/
def sortByLe (le : α → α → Bool) : List α → List α
  | [] => []
  | a :: as => insertLe le a (sortByLe le as)

/-- Embeds stableSortBy from packages/core/src/utils.ts lines 64-75. -/
def stableSortBy (items : List α) (key : α → List Char) : List α :=
  (sortByLe (keyIdxLe key) items.enum).map Prod.snd

/-! ## Scanner data model (packages/core/src/types.ts) -/

/-- OsvVulnerability from packages/core/src/types.ts. -/
structure OsvVulnerability where
  id : String
  summary : Option String
  aliases : Option (List String)
  severity : Severity
  severitySource : SeveritySource
  unknownReason : Option UnknownReason
  modified : Option String
  references : Option (List String)
  fixedVersion : Option String
deriving DecidableEq, Repr

/-- DependencyNode from packages/core/src/types.ts. -/
structure DependencyNode where
  name : String
  version : String
  direct : Bool
deriving DecidableEq, Repr

/-- Finding from packages/core/src/types.ts. -/
structure Finding where
  packageName : String
  version : String
  direct : Bool
  severity : Severity
  severitySource : SeveritySource
  unknownReason : Option UnknownReason
  confidence : Confidence
  evidence : List String
  vulnerabilities : List OsvVulnerability
  source : LookupSource
deriving DecidableEq, Repr

/-- OsvLookupResult from the OSV client. -/
structure OsvLookupResult where
  source : LookupSource
  vulnerabilities : List OsvVulnerability
deriving DecidableEq, Repr

/-- EvidenceIndex from evidence.ts; byPackage is the Map as an association
list in insertion order. -/
structure EvidenceIndex where
  scannedFiles : Nat
  byPackage : List (String × List String)
deriving DecidableEq, Repr

/-- ScanOptions from packages/core/src/types.ts (the fields the pure scan
core consults, plus unknownAs and refreshCache which it receives). -/
structure ScanOptions where
  projectPath : String
  outDir : String
  failOn : FailOn
  offline : Bool
  unknownAs : Severity
  refreshCache : Bool
deriving DecidableEq, Repr

/-- The Record of severity counters of ScanReport.summary.bySeverity. -/
structure SeverityCounts where
  critical : Nat
  high : Nat
  medium : Nat
  low : Nat
  unknown : Nat
deriving DecidableEq, Repr

/-- The Record of confidence counters of ScanReport.summary.byConfidence. -/
structure ConfidenceCounts where
  high : Nat
  medium : Nat
  low : Nat
  unknown : Nat
deriving DecidableEq, Repr

/-- ScanReport.summary from packages/core/src/types.ts. -/
structure ScanSummary where
  dependencyCount : Nat
  scannedFiles : Nat
  findingsCount : Nat
  bySeverity : SeverityCounts
  byConfidence : ConfidenceCounts
deriving DecidableEq, Repr

/-- ScanReport from packages/core/src/types.ts. -/
structure ScanReport where
  targetPath : String
  generatedAt : String
  failOn : FailOn
  summary : ScanSummary
  findings : List Finding
deriving DecidableEq, Repr

/-- First-match lookup in an association list, the Map.get of JS maps. -/
def lookupStr (m : List (String × β)) (k : String) : Option β :=
  (m.find? (fun p => decide (p.1 = k))).map (fun p => p.2)

/-! ## Report ordering (packages/core/src/report.ts) -/

/-- The vulnerability-id join of the sort key:
f.vulnerabilities.map(v => v.id).join(',') in sortFindings. -/
def joinIds (ids : List String) : List Char :=
  List.intercalate [','] (ids.map String.data)

/-- The ordering key of sortFindings (report.ts lines 46-49):
the decimal digits of 9 - severityRank, then colon-separated name, version
and comma-joined advisory ids. -/
def findingKey (f : Finding) : List Char :=
  (Nat.repr (9 - severityRank f.severity)).data ++
    ':' :: (f.packageName.data ++
      ':' :: (f.version.data ++
        ':' :: joinIds (f.vulnerabilities.map (fun v => v.id))))

/-- Embeds sortFindings from packages/core/src/report.ts lines 37-50. -/
def sortFindings (findings : List Finding) : List Finding :=
  stableSortBy findings findingKey

/-! ## Finding synthesis (runScan, src/unnamed/part_011) -/

/-- Embeds determineConfidence from part_011 lines 78-83. -/
def determineConfidence (direct hasEvidence : Bool) : Confidence :=
  if direct && hasEvidence then .high
  else if direct && !hasEvidence then .medium
  else if !direct && hasEvidence then .low
  else .unknown

/-- The severity/severitySource/unknownReason triple highestSeverity picks
from the top-ranked vulnerability. -/
structure SevTriple where
  severity : Severity
  severitySource : SeveritySource
  unknownReason : Option UnknownReason
deriving DecidableEq, Repr

/-- Comparator of the descending stable sort inside highestSeverity
(part_011 line 89): rank[b.severity] - rank[a.severity], stable. -/
def sevDescIdxLe (a b : Nat × OsvVulnerability) : Bool :=
  if severityRank b.2.severity < severityRank a.2.severity then true
  else if severityRank a.2.severity < severityRank b.2.severity then false
  else decide (a.1 ≤ b.1)

/-- Embeds highestSeverity from part_011 lines 85-91: stable descending sort
by severity rank, first element, or the missing_score default on an empty
list. -/
def highestSeverity (vulnerabilities : List OsvVulnerability) : SevTriple :=
  match (sortByLe sevDescIdxLe vulnerabilities.enum).map Prod.snd with
  | [] => ⟨.unknown, .unknown, some .missing_score⟩
  | v :: _ => ⟨v.severity, v.severitySource, v.unknownReason⟩

/-- Embeds countBySeverity's per-finding increment (part_011 lines 93-103). -/
def bumpSeverity (c : SeverityCounts) : Severity → SeverityCounts
  | .critical => { c with critical := c.critical + 1 }
  | .high => { c with high := c.high + 1 }
  | .medium => { c with medium := c.medium + 1 }
  | .low => { c with low := c.low + 1 }
  | .unknown => { c with unknown := c.unknown + 1 }

/-- Embeds countBySeverity from part_011 lines 93-103. -/
def countBySeverity (findings : List Finding) : SeverityCounts :=
  findings.foldl (fun c f => bumpSeverity c f.severity) ⟨0, 0, 0, 0, 0⟩

/-- Embeds countByConfidence's per-finding increment (part_011, 105-114). -/
def bumpConfidence (c : ConfidenceCounts) : Confidence → ConfidenceCounts
  | .high => { c with high := c.high + 1 }
  | .medium => { c with medium := c.medium + 1 }
  | .low => { c with low := c.low + 1 }
  | .unknown => { c with unknown := c.unknown + 1 }

/-- Embeds countByConfidence from part_011 lines 105-114. -/
def countByConfidence (findings : List Finding) : ConfidenceCounts :=
  findings.foldl (fun c f => bumpConfidence c f.confidence) ⟨0, 0, 0, 0⟩

/-- The finding the loop body of runScan pushes for one dependency, given
its lookup result and evidence file list (part_011 lines 16-57); none when
the dependency contributes no finding. -/
def findingForDep (dep : DependencyNode) (result : OsvLookupResult)
    (evidenceFiles : List String) : Option Finding :=
  let hasEvidence := decide (0 < evidenceFiles.length)
  if result.source = LookupSource.unknown then
    some ⟨dep.name, dep.version, dep.direct, .unknown, .unknown,
      some .lookup_failed, .unknown, evidenceFiles, [], .unknown⟩
  else if result.vulnerabilities.length = 0 then none
  else
    let top := highestSeverity result.vulnerabilities
    some ⟨dep.name, dep.version, dep.direct, top.severity, top.severitySource,
      top.unknownReason, determineConfidence dep.direct hasEvidence,
      evidenceFiles, result.vulnerabilities, result.source⟩

/-- The pure core of runScan, embedding src/unnamed/part_011 lines 8-76
(the current scan.ts, the revision consistent with types.ts and the
package's tests; the older revision at packages/core/src/scan.ts differs
only in not recording severitySource/unknownReason). The awaited
collaborators are explicit inputs: parsedDeps is parsePackageLock's
dependency list, evidence the collected EvidenceIndex, osvResults the map
returned by OsvClient.batchQuery, and now the string produced by
new Date().toISOString(). Note that options.unknownAs is received but never
consulted by the body, exactly as in the source. -/
def runScanPure (options : ScanOptions) (parsedDeps : List DependencyNode)
    (evidence : EvidenceIndex) (osvResults : List (String × OsvLookupResult))
    (now : String) : ScanReport :=
  let findings := parsedDeps.foldl (fun acc dep =>
    match lookupStr osvResults (dep.name ++ "@" ++ dep.version) with
    | none => acc
    | some result =>
      let evidenceFiles := (lookupStr evidence.byPackage dep.name).getD []
      match findingForDep dep result evidenceFiles with
      | none => acc
      | some f => acc ++ [f]) []
  let sorted := sortFindings findings
  ⟨options.projectPath, now, options.failOn,
    ⟨parsedDeps.length, evidence.scannedFiles, sorted.length,
      countBySeverity sorted, countByConfidence sorted⟩,
    sorted⟩

/-! ## CLI exit decision (packages/cli/src/index.ts lines 194-214) -/

/-- Embeds the thresholdHit computation of runCli (cli/src/index.ts lines
194-196). -/
def thresholdHit (failOn : FailOn) (findings : List Finding) : Bool :=
  decide (failOn ≠ FailOn.none) &&
    findings.any (fun f => shouldFail failOn f.severity)

/-- Embeds the unknownHit computation of runCli (cli/src/index.ts lines
197-199). -/
def unknownHit (failOnUnknown : Bool) (findings : List Finding) : Bool :=
  failOnUnknown &&
    findings.any (fun f =>
      decide (f.severity = Severity.unknown) || f.unknownReason.isSome)

/-- Embeds the exit-code decision of runCli (cli/src/index.ts lines
211-215): 1 when the threshold or the unknown threshold is hit, else 0. -/
def scanExitCode (failOn : FailOn) (failOnUnknown : Bool)
    (findings : List Finding) : Nat :=
  if thresholdHit failOn findings || unknownHit failOnUnknown findings
  then 1 else 0

/-- C10: for every fail-on threshold among critical, high, medium and low,
shouldFail(failOn, unknown) is false, because the rank of unknown (1) is
below the rank of low (2); consequently findings whose severity stays
unknown set exit code 1 only through the fail-on-unknown flag: with the
flag off a report of all-unknown findings exits 0 for every threshold, and
with the flag on any unknown finding exits 1. -/
theorem C10_unknown_below_fail_on (failOn : FailOn) (findings : List Finding)
    (hf : failOn ≠ FailOn.none) :
    shouldFail failOn Severity.unknown = false ∧
    severityRank Severity.unknown = 1 ∧
    severityRank Severity.low = 2 ∧
    ((∀ f ∈ findings, f.severity = Severity.unknown) →
      scanExitCode failOn false findings = 0) ∧
    ((∃ f ∈ findings, f.severity = Severity.unknown) →
      scanExitCode failOn true findings = 1) := by
  have hsf : shouldFail failOn Severity.unknown = false := by
    cases failOn <;> first | rfl | exact absurd rfl hf
  refine ⟨hsf, rfl, rfl, ?_, ?_⟩
  · intro hall
    have hth : thresholdHit failOn findings = false := by
      have : findings.any (fun f => shouldFail failOn f.severity) = false := by
        rw [List.any_eq_false]
        intro f hfmem
        rw [hall f hfmem, hsf]
        exact Bool.false_ne_true
      simp [thresholdHit, this]
    simp [scanExitCode, hth, unknownHit]
  · rintro ⟨f, hfmem, hfsev⟩
    have hun : unknownHit true findings = true := by
      rw [unknownHit, Bool.true_and, List.any_eq_true]
      exact ⟨f, hfmem, by simp [hfsev]⟩
    simp [scanExitCode, hun]

/-- Witness for C10 at failOn = high with a single unknown finding. -/
theorem C10_unknown_below_fail_on_witness :
    shouldFail FailOn.high Severity.unknown = false ∧
    scanExitCode FailOn.high false
      [⟨"lodash", "4.17.21", true, Severity.unknown, SeveritySource.unknown,
        some UnknownReason.lookup_failed, Confidence.unknown, [], [],
        LookupSource.unknown⟩] = 0 := by
  have h := C10_unknown_below_fail_on FailOn.high
    [⟨"lodash", "4.17.21", true, Severity.unknown, SeveritySource.unknown,
      some UnknownReason.lookup_failed, Confidence.unknown, [], [],
      LookupSource.unknown⟩] (by decide)
  exact ⟨h.1, h.2.2.2.1 (by decide)⟩

/-! ## Claim C4: summary counters -/

/-- The sum of the five bySeverity counters. -/
def sumSeverityCounts (c : SeverityCounts) : Nat :=
  c.critical + c.high + c.medium + c.low + c.unknown

/-- The sum of the four byConfidence counters. -/
def sumConfidenceCounts (c : ConfidenceCounts) : Nat :=
  c.high + c.medium + c.low + c.unknown

theorem sumSeverityCounts_bump (c : SeverityCounts) (s : Severity) :
    sumSeverityCounts (bumpSeverity c s) = sumSeverityCounts c + 1 := by
  cases s <;> simp [bumpSeverity, sumSeverityCounts] <;> omega

theorem sumConfidenceCounts_bump (c : ConfidenceCounts) (s : Confidence) :
    sumConfidenceCounts (bumpConfidence c s) = sumConfidenceCounts c + 1 := by
  cases s <;> simp [bumpConfidence, sumConfidenceCounts] <;> omega

theorem sumSeverityCounts_foldl (l : List Finding) :
    ∀ c : SeverityCounts,
      sumSeverityCounts (l.foldl (fun c f => bumpSeverity c f.severity) c) =
        sumSeverityCounts c + l.length := by
  induction l with
  | nil => intro c; simp
  | cons f fs ih =>
    intro c
    simp only [List.foldl_cons, List.length_cons]
    rw [ih, sumSeverityCounts_bump]
    omega

theorem sumConfidenceCounts_foldl (l : List Finding) :
    ∀ c : ConfidenceCounts,
      sumConfidenceCounts
          (l.foldl (fun c f => bumpConfidence c f.confidence) c) =
        sumConfidenceCounts c + l.length := by
  induction l with
  | nil => intro c; simp
  | cons f fs ih =>
    intro c
    simp only [List.foldl_cons, List.length_cons]
    rw [ih, sumConfidenceCounts_bump]
    omega

/-- C4: for every ScanReport produced by runScan, summary.findingsCount
equals the length of the findings list, the sum of the five bySeverity
counters equals that length, and the sum of the four byConfidence counters
equals that length. -/
theorem C4_summary_counts (options : ScanOptions)
    (parsedDeps : List DependencyNode) (evidence : EvidenceIndex)
    (osvResults : List (String × OsvLookupResult)) (now : String) :
    (runScanPure options parsedDeps evidence osvResults now).summary.findingsCount =
      (runScanPure options parsedDeps evidence osvResults now).findings.length ∧
    sumSeverityCounts
        (runScanPure options parsedDeps evidence osvResults now).summary.bySeverity =
      (runScanPure options parsedDeps evidence osvResults now).findings.length ∧
    sumConfidenceCounts
        (runScanPure options parsedDeps evidence osvResults now).summary.byConfidence =
      (runScanPure options parsedDeps evidence osvResults now).findings.length := by
  refine ⟨rfl, ?_, ?_⟩
  · show sumSeverityCounts (countBySeverity _) = _
    rw [countBySeverity, sumSeverityCounts_foldl]
    simp [sumSeverityCounts, runScanPure]
  · show sumConfidenceCounts (countByConfidence _) = _
    rw [countByConfidence, sumConfidenceCounts_foldl]
    simp [sumConfidenceCounts, runScanPure]

/-! ## Claim C3: determinism and generatedAt -/

/-- C3 counterexample: two scans over byte-identical inputs (same
dependency list, evidence, lookup results and options) but run at two
different instants produce reports that differ, because generatedAt is
new Date().toISOString() and not a function of the scan inputs. The
findings are nevertheless identical. JSON.stringify(report, null, 2)
serializes generatedAt, so the serialized outputs differ as well. -/
theorem C3_counterexample :
    (runScanPure ⟨"proj", "out", .high, true, .unknown, false⟩ []
        ⟨0, []⟩ [] "2026-01-01T00:00:00.000Z").generatedAt ≠
      (runScanPure ⟨"proj", "out", .high, true, .unknown, false⟩ []
        ⟨0, []⟩ [] "2026-01-01T00:00:01.000Z").generatedAt ∧
    runScanPure ⟨"proj", "out", .high, true, .unknown, false⟩ []
        ⟨0, []⟩ [] "2026-01-01T00:00:00.000Z" ≠
      runScanPure ⟨"proj", "out", .high, true, .unknown, false⟩ []
        ⟨0, []⟩ [] "2026-01-01T00:00:01.000Z" ∧
    (runScanPure ⟨"proj", "out", .high, true, .unknown, false⟩ []
        ⟨0, []⟩ [] "2026-01-01T00:00:00.000Z").findings =
      (runScanPure ⟨"proj", "out", .high, true, .unknown, false⟩ []
        ⟨0, []⟩ [] "2026-01-01T00:00:01.000Z").findings := by
  refine ⟨?_, ?_, rfl⟩
  · intro h
    exact absurd h (by decide)
  · intro h
    exact absurd (congrArg ScanReport.generatedAt h) (by decide)

/-- C3 amended: for identical inputs the report is a pure function of the
inputs and the clock instant; every field other than generatedAt (target
path, failOn, the full summary, and the sorted findings list) is a pure
function of the scan inputs alone, so two runs over identical inputs agree
everywhere except possibly generatedAt, and agree byte-for-byte when the
clock instants coincide. -/
theorem C3_deterministic_modulo_generatedAt (options : ScanOptions)
    (parsedDeps : List DependencyNode) (evidence : EvidenceIndex)
    (osvResults : List (String × OsvLookupResult)) (now1 now2 : String) :
    (runScanPure options parsedDeps evidence osvResults now1).targetPath =
      (runScanPure options parsedDeps evidence osvResults now2).targetPath ∧
    (runScanPure options parsedDeps evidence osvResults now1).failOn =
      (runScanPure options parsedDeps evidence osvResults now2).failOn ∧
    (runScanPure options parsedDeps evidence osvResults now1).summary =
      (runScanPure options parsedDeps evidence osvResults now2).summary ∧
    (runScanPure options parsedDeps evidence osvResults now1).findings =
      (runScanPure options parsedDeps evidence osvResults now2).findings ∧
    (runScanPure options parsedDeps evidence osvResults now1).generatedAt =
      now1 :=
  ⟨rfl, rfl, rfl, rfl, rfl⟩

/-! ## Claim C1: the unknownAs policy -/

/-- C1: the code does not implement the unknownAs policy that the
specification (section 4.5 step 5) and the package's own test
(packages/core/test/scan.test.ts, "runScan applies unknownAs policy for
unresolved findings") require. With unknownAs = high and a single
dependency whose lookup is unknown (offline scan, empty cache), runScan
leaves the finding at severity unknown with severitySource unknown instead
of overwriting severity to high with severitySource policy_override. This
theorem evaluates the embedded runScan at exactly that failing input. -/
theorem C1_unknownAs_policy_not_applied :
    (runScanPure ⟨"proj", "out", .high, true, Severity.high, false⟩
        [⟨"lodash", "4.17.21", true⟩] ⟨0, []⟩
        [("lodash@4.17.21", ⟨LookupSource.unknown, []⟩)]
        "2026-02-19T00:00:00.000Z").findings.map
      (fun f => (f.severity, f.severitySource, f.unknownReason)) =
    [(Severity.unknown, SeveritySource.unknown,
      some UnknownReason.lookup_failed)] := by
  decide

/-! ## Order-theoretic facts about the JS string comparison -/

theorem lexLt_cons (a b : Char) (as bs : List Char) :
    lexLt (a :: as) (b :: bs) =
      if a < b then true else if b < a then false else lexLt as bs := rfl

theorem lexLt_irrefl : ∀ l : List Char, lexLt l l = false
  | [] => rfl
  | a :: as => by
    rw [lexLt_cons, if_neg (lt_irrefl a), if_neg (lt_irrefl a)]
    exact lexLt_irrefl as

theorem lexLt_asymm :
    ∀ {a b : List Char}, lexLt a b = true → lexLt b a = false
  | [], [], h => by simp [lexLt] at h
  | [], _ :: _, _ => rfl
  | _ :: _, [], h => by simp [lexLt] at h
  | x :: xs, y :: ys, h => by
    rw [lexLt_cons] at h
    rw [lexLt_cons]
    by_cases hxy : x < y
    · rw [if_neg (asymm hxy), if_pos hxy]
    · rw [if_neg hxy] at h
      by_cases hyx : y < x
      · rw [if_pos hyx] at h
        exact absurd h Bool.false_ne_true
      · rw [if_neg hyx, if_neg hxy] at *
        exact lexLt_asymm h

theorem lexLt_trans :
    ∀ {a b c : List Char}, lexLt a b = true → lexLt b c = true →
      lexLt a c = true
  | [], _, _ :: _, _, _ => rfl
  | [], [], [], h1, _ => by simp [lexLt] at h1
  | [], _ :: _, [], _, h2 => by simp [lexLt] at h2
  | _ :: _, [], _, h1, _ => by simp [lexLt] at h1
  | _ :: _, _ :: _, [], _, h2 => by simp [lexLt] at h2
  | x :: xs, y :: ys, z :: zs, h1, h2 => by
    rw [lexLt_cons] at h1 h2 ⊢
    by_cases hxy : x < y
    · by_cases hyz : y < z
      · rw [if_pos (lt_trans hxy hyz)]
      · by_cases hzy : z < y
        · rw [if_neg hyz, if_pos hzy] at h2
          simp at h2
        · have hyz' : y = z := le_antisymm (not_lt.mp hzy) (not_lt.mp hyz)
          rw [if_pos (hyz' ▸ hxy)]
    · by_cases hyx : y < x
      · rw [if_neg hxy, if_pos hyx] at h1
        simp at h1
      · have hxy' : x = y := le_antisymm (not_lt.mp hyx) (not_lt.mp hxy)
        rw [if_neg hxy, if_neg hyx] at h1
        by_cases hyz : y < z
        · rw [if_pos (hxy' ▸ hyz)]
        · by_cases hzy : z < y
          · rw [if_neg hyz, if_pos hzy] at h2
            simp at h2
          · rw [if_neg hyz, if_neg hzy] at h2
            rw [hxy', if_neg hyz, if_neg hzy]
            exact lexLt_trans h1 h2

theorem lexLt_eq_of_not :
    ∀ {a b : List Char}, lexLt a b = false → lexLt b a = false → a = b
  | [], [], _, _ => rfl
  | [], _ :: _, h1, _ => by simp [lexLt] at h1
  | _ :: _, [], _, h2 => by simp [lexLt] at h2
  | x :: xs, y :: ys, h1, h2 => by
    rw [lexLt_cons] at h1 h2
    by_cases hxy : x < y
    · rw [if_pos hxy] at h1
      simp at h1
    · by_cases hyx : y < x
      · rw [if_pos hyx] at h2
        simp at h2
      · have hxy' : x = y := le_antisymm (not_lt.mp hyx) (not_lt.mp hxy)
        rw [if_neg hxy, if_neg hyx] at h1
        rw [if_neg hyx, if_neg hxy] at h2
        rw [hxy', lexLt_eq_of_not h1 h2]

theorem keyIdxLe_iff (key : α → List Char) (a b : Nat × α) :
    keyIdxLe key a b = true ↔
      lexLt (key a.2) (key b.2) = true ∨
        (key a.2 = key b.2 ∧ a.1 ≤ b.1) := by
  unfold keyIdxLe
  by_cases h1 : lexLt (key a.2) (key b.2) = true
  · simp [h1]
  · rw [if_neg (by simpa using h1)]
    by_cases h2 : lexLt (key b.2) (key a.2) = true
    · rw [if_pos h2]
      constructor
      · intro h
        simp at h
      · rintro (hc | ⟨he, _⟩)
        · exact absurd hc h1
        · rw [he, lexLt_irrefl] at h2
          simp at h2
    · rw [if_neg (by simpa using h2)]
      have he : key a.2 = key b.2 :=
        lexLt_eq_of_not (Bool.eq_false_iff.mpr h1) (Bool.eq_false_iff.mpr h2)
      constructor
      · intro h
        exact Or.inr ⟨he, by simpa using h⟩
      · rintro (hc | ⟨_, hle⟩)
        · exact absurd hc h1
        · simpa using hle

theorem keyIdxLe_total (key : α → List Char) (a b : Nat × α) :
    keyIdxLe key a b = true ∨ keyIdxLe key b a = true := by
  by_cases h1 : lexLt (key a.2) (key b.2) = true
  · exact Or.inl ((keyIdxLe_iff key a b).mpr (Or.inl h1))
  · by_cases h2 : lexLt (key b.2) (key a.2) = true
    · exact Or.inr ((keyIdxLe_iff key b a).mpr (Or.inl h2))
    · have he : key a.2 = key b.2 :=
        lexLt_eq_of_not (Bool.eq_false_iff.mpr h1) (Bool.eq_false_iff.mpr h2)
      rcases Nat.le_total a.1 b.1 with h | h
      · exact Or.inl ((keyIdxLe_iff key a b).mpr (Or.inr ⟨he, h⟩))
      · exact Or.inr ((keyIdxLe_iff key b a).mpr (Or.inr ⟨he.symm, h⟩))

theorem keyIdxLe_trans (key : α → List Char) (a b c : Nat × α)
    (h1 : keyIdxLe key a b = true) (h2 : keyIdxLe key b c = true) :
    keyIdxLe key a c = true := by
  rw [keyIdxLe_iff] at h1 h2 ⊢
  rcases h1 with h1 | ⟨he1, hi1⟩
  · rcases h2 with h2 | ⟨he2, _⟩
    · exact Or.inl (lexLt_trans h1 h2)
    · exact Or.inl (he2 ▸ h1)
  · rcases h2 with h2 | ⟨he2, hi2⟩
    · exact Or.inl (he1 ▸ h2)
    · exact Or.inr ⟨he1.trans he2, le_trans hi1 hi2⟩

/-! ## Insertion sort: permutation and sortedness -/

theorem insertLe_perm (le : α → α → Bool) (a : α) :
    ∀ l : List α, (insertLe le a l).Perm (a :: l)
  | [] => List.Perm.refl _
  | b :: bs => by
    unfold insertLe
    by_cases h : le a b = true
    · rw [if_pos h]
    · rw [if_neg h]
      exact ((insertLe_perm le a bs).cons b).trans (List.Perm.swap a b bs)

theorem sortByLe_perm (le : α → α → Bool) :
    ∀ l : List α, (sortByLe le l).Perm l
  | [] => List.Perm.refl _
  | a :: as =>
    (insertLe_perm le a (sortByLe le as)).trans
      ((sortByLe_perm le as).cons a)

theorem mem_insertLe (le : α → α → Bool) (a x : α) (l : List α)
    (h : x ∈ insertLe le a l) : x = a ∨ x ∈ l := by
  have := (insertLe_perm le a l).mem_iff.mp h
  simpa using this

theorem pairwise_insertLe (le : α → α → Bool)
    (htot : ∀ a b, le a b = true ∨ le b a = true)
    (htrans : ∀ a b c, le a b = true → le b c = true → le a c = true)
    (a : α) :
    ∀ l : List α, l.Pairwise (fun x y => le x y = true) →
      (insertLe le a l).Pairwise (fun x y => le x y = true)
  | [], _ => by simp [insertLe]
  | b :: bs, h => by
    rw [List.pairwise_cons] at h
    unfold insertLe
    by_cases hab : le a b = true
    · rw [if_pos hab]
      refine List.Pairwise.cons ?_ (List.Pairwise.cons h.1 h.2)
      intro y hy
      rcases List.mem_cons.mp hy with rfl | hy'
      · exact hab
      · exact htrans a b y hab (h.1 y hy')
    · rw [if_neg hab]
      refine List.Pairwise.cons ?_ (pairwise_insertLe le htot htrans a bs h.2)
      intro y hy
      rcases mem_insertLe le a y bs hy with rfl | hy'
      · exact (htot y b).resolve_left hab
      · exact h.1 y hy'

theorem pairwise_sortByLe (le : α → α → Bool)
    (htot : ∀ a b, le a b = true ∨ le b a = true)
    (htrans : ∀ a b c, le a b = true → le b c = true → le a c = true) :
    ∀ l : List α, (sortByLe le l).Pairwise (fun x y => le x y = true)
  | [] => List.Pairwise.nil
  | a :: as =>
    pairwise_insertLe le htot htrans a (sortByLe le as)
      (pairwise_sortByLe le htot htrans as)

/-! ## Enumeration indices -/

theorem fst_ge_of_mem_enumFrom :
    ∀ (l : List α) (n : Nat) (p : Nat × α), p ∈ l.enumFrom n → n ≤ p.1
  | [], _, _, h => absurd h (List.not_mem_nil _)
  | x :: xs, n, p, h => by
    rw [show (x :: xs).enumFrom n = (n, x) :: xs.enumFrom (n + 1) from rfl,
      List.mem_cons] at h
    rcases h with rfl | h
    · exact le_refl _
    · exact le_trans (Nat.le_succ n) (fst_ge_of_mem_enumFrom xs (n + 1) p h)

theorem pairwise_fst_lt_enumFrom :
    ∀ (l : List α) (n : Nat),
      (l.enumFrom n).Pairwise (fun a b => a.1 < b.1)
  | [], _ => List.Pairwise.nil
  | x :: xs, n => by
    rw [show (x :: xs).enumFrom n = (n, x) :: xs.enumFrom (n + 1) from rfl]
    refine List.Pairwise.cons ?_ (pairwise_fst_lt_enumFrom xs (n + 1))
    intro p hp
    exact lt_of_lt_of_le (Nat.lt_succ_self n)
      (fst_ge_of_mem_enumFrom xs (n + 1) p hp)

/-- Stability of stableSortBy: elements sharing one sort key keep their
input order, stated as equality of the key-filtered sublists. -/
theorem stableSortBy_filter_key (key : α → List Char) (l : List α)
    (k : List Char) :
    (stableSortBy l key).filter (fun x => decide (key x = k)) =
      l.filter (fun x => decide (key x = k)) := by
  have hperm : ((sortByLe (keyIdxLe key) l.enum).filter
      (fun a => decide (key a.2 = k))).Perm
      (l.enum.filter (fun a => decide (key a.2 = k))) :=
    (sortByLe_perm (keyIdxLe key) l.enum).filter _
  have hS : (sortByLe (keyIdxLe key) l.enum).Pairwise
      (fun x y => keyIdxLe key x y = true) :=
    pairwise_sortByLe (keyIdxLe key) (keyIdxLe_total key)
      (keyIdxLe_trans key) l.enum
  have hne : (sortByLe (keyIdxLe key) l.enum).Pairwise
      (fun a b => a.1 ≠ b.1) := by
    have hD : l.enum.Pairwise (fun a b => a.1 ≠ b.1) :=
      (pairwise_fst_lt_enumFrom l 0).imp (fun h => Nat.ne_of_lt h)
    exact ((sortByLe_perm (keyIdxLe key) l.enum).pairwise_iff
      (fun hab => Ne.symm hab)).mpr hD
  have hSf : ((sortByLe (keyIdxLe key) l.enum).filter
      (fun a => decide (key a.2 = k))).Pairwise (fun a b => a.1 < b.1) := by
    have h1 := (hS.and hne).filter (fun a => decide (key a.2 = k))
    refine List.Pairwise.imp_of_mem ?_ h1
    intro a b ha hb hr
    have hka : key a.2 = k := by
      have := (List.mem_filter.mp ha).2
      simpa using this
    have hkb : key b.2 = k := by
      have := (List.mem_filter.mp hb).2
      simpa using this
    rcases (keyIdxLe_iff key a b).mp hr.1 with hc | ⟨_, hle⟩
    · rw [hka, hkb, lexLt_irrefl] at hc
      simp at hc
    · exact lt_of_le_of_ne hle hr.2
  have hDf : (l.enum.filter
      (fun a => decide (key a.2 = k))).Pairwise (fun a b => a.1 < b.1) :=
    (pairwise_fst_lt_enumFrom l 0).filter _
  haveI : IsAntisymm (Nat × α) (fun a b => a.1 < b.1) :=
    ⟨fun a b h1 h2 => absurd (lt_trans h1 h2) (lt_irrefl _)⟩
  have heq : (sortByLe (keyIdxLe key) l.enum).filter
      (fun a => decide (key a.2 = k)) =
      l.enum.filter (fun a => decide (key a.2 = k)) :=
    List.eq_of_perm_of_sorted hperm hSf hDf
  have hmain : ((sortByLe (keyIdxLe key) l.enum).map Prod.snd).filter
      (fun x => decide (key x = k)) =
      (l.enum.map Prod.snd).filter (fun x => decide (key x = k)) := by
    rw [List.map_filter, List.map_filter]
    show ((sortByLe (keyIdxLe key) l.enum).filter
        (fun a => decide (key a.2 = k))).map Prod.snd = _
    rw [heq]
    rfl
  calc (stableSortBy l key).filter (fun x => decide (key x = k)) =
      ((sortByLe (keyIdxLe key) l.enum).map Prod.snd).filter
        (fun x => decide (key x = k)) := rfl
    _ = (l.enum.map Prod.snd).filter (fun x => decide (key x = k)) := hmain
    _ = l.filter (fun x => decide (key x = k)) := by rw [List.enum_map_snd]

/-! ## The sort key and severities (claim C5) -/

/-- The leading character of the sort key: the single decimal digit of
9 - severityRank. -/
def sevDigitChar : Severity → Char
  | .critical => '4'
  | .high => '5'
  | .medium => '6'
  | .low => '7'
  | .unknown => '8'

theorem findingKey_decomp (f : Finding) :
    findingKey f = sevDigitChar f.severity :: ':' ::
      (f.packageName.data ++ ':' :: (f.version.data ++
        ':' :: joinIds (f.vulnerabilities.map (fun v => v.id)))) := by
  cases hf : f.severity <;>
    simp [findingKey, severityRank, hf, sevDigitChar] <;> rfl

theorem lexLt_cons_of_lt {a b : Char} (h : a < b) (as bs : List Char) :
    lexLt (a :: as) (b :: bs) = true := by
  rw [lexLt_cons, if_pos h]

theorem lexLt_cons_same (c : Char) (as bs : List Char) :
    lexLt (c :: as) (c :: bs) = lexLt as bs := by
  rw [lexLt_cons, if_neg (lt_irrefl c), if_neg (lt_irrefl c)]

theorem lexLt_key_of_rank_lt (f g : Finding)
    (h : severityRank g.severity < severityRank f.severity) :
    lexLt (findingKey f) (findingKey g) = true := by
  rw [findingKey_decomp f, findingKey_decomp g]
  refine lexLt_cons_of_lt ?_ _ _
  revert h
  cases f.severity <;> cases g.severity <;> intro h <;>
    first
      | exact absurd h (by decide)
      | decide

theorem severity_eq_of_key_eq (f g : Finding)
    (h : findingKey f = findingKey g) : f.severity = g.severity := by
  rw [findingKey_decomp f, findingKey_decomp g] at h
  have hc : sevDigitChar f.severity = sevDigitChar g.severity :=
    (List.cons.injEq _ _ _ _).mp h |>.1
  revert hc
  cases f.severity <;> cases g.severity <;> intro hc <;>
    first
      | rfl
      | exact absurd hc (by decide)

theorem lexLt_append_of_not_ext :
    ∀ {l1 l2 : List Char} (r1 r2 : List Char), lexLt l1 l2 = true →
      (¬ ∃ t, l2 = l1 ++ t) → lexLt (l1 ++ r1) (l2 ++ r2) = true
  | [], l2, _, _, _, hne => absurd ⟨l2, rfl⟩ hne
  | _ :: _, [], _, _, h, _ => by simp [lexLt] at h
  | x :: xs, y :: ys, r1, r2, h, hne => by
    rw [lexLt_cons] at h
    rw [List.cons_append, List.cons_append, lexLt_cons]
    by_cases hxy : x < y
    · rw [if_pos hxy]
    · rw [if_neg hxy] at h ⊢
      by_cases hyx : y < x
      · rw [if_pos hyx] at h
        simp at h
      · rw [if_neg hyx] at h ⊢
        have hx : x = y := le_antisymm (not_lt.mp hyx) (not_lt.mp hxy)
        refine lexLt_append_of_not_ext r1 r2 h ?_
        rintro ⟨t, ht⟩
        exact hne ⟨t, by rw [List.cons_append, ← ht, hx]⟩

/-- C5 amended: sortFindings orders every list of findings ascending by
the string key "digits of 9 - severityRank : name : version : joined ids",
with equal-key ties kept in original order (stability stated as equality
of the key-filtered sublists), and this places strictly higher severities
before strictly lower ones. Equal-severity findings are ordered
alphabetically by package name whenever neither compared name extends the
other (the same holds one level down for versions and id sequences); when
one name is a strict prefix of the other followed by a character below
the colon (code unit 58), such as a digit or hyphen, the concatenated key
inverts the alphabetical order, which is what the counterexample forces
the amendment to allow. -/
theorem C5_sortFindings_order (findings : List Finding) :
    (sortFindings findings).Perm findings ∧
    (sortFindings findings).Pairwise (fun f g =>
      lexLt (findingKey f) (findingKey g) = true ∨
        findingKey f = findingKey g) ∧
    (∀ k, (sortFindings findings).filter
        (fun f => decide (findingKey f = k)) =
      findings.filter (fun f => decide (findingKey f = k))) ∧
    (sortFindings findings).Pairwise (fun f g =>
      severityRank g.severity ≤ severityRank f.severity) ∧
    (∀ f g : Finding,
      severityRank g.severity < severityRank f.severity →
      lexLt (findingKey f) (findingKey g) = true) ∧
    (∀ f g : Finding, f.severity = g.severity →
      lexLt f.packageName.data g.packageName.data = true →
      (¬ ∃ t, g.packageName.data = f.packageName.data ++ t) →
      lexLt (findingKey f) (findingKey g) = true) := by
  have hpair : (sortFindings findings).Pairwise (fun f g =>
      lexLt (findingKey f) (findingKey g) = true ∨
        findingKey f = findingKey g) := by
    have hS : (sortByLe (keyIdxLe findingKey) findings.enum).Pairwise
        (fun x y => keyIdxLe findingKey x y = true) :=
      pairwise_sortByLe _ (keyIdxLe_total findingKey)
        (keyIdxLe_trans findingKey) findings.enum
    refine List.Pairwise.map Prod.snd ?_ hS
    intro a b hab
    rcases (keyIdxLe_iff findingKey a b).mp hab with hc | ⟨he, _⟩
    · exact Or.inl hc
    · exact Or.inr he
  refine ⟨?_, hpair, ?_, ?_, lexLt_key_of_rank_lt, ?_⟩
  · have h := (sortByLe_perm (keyIdxLe findingKey) findings.enum).map Prod.snd
    rw [List.enum_map_snd] at h
    exact h
  · intro k
    exact stableSortBy_filter_key findingKey findings k
  · refine hpair.imp ?_
    intro f g h
    rcases h with hc | he
    · by_contra hlt
      have := lexLt_key_of_rank_lt g f (not_le.mp hlt)
      rw [lexLt_asymm this] at hc
      simp at hc
    · rw [severity_eq_of_key_eq f g he]
  · intro f g hsev hname hnotext
    rw [findingKey_decomp f, findingKey_decomp g, hsev]
    rw [lexLt_cons_same, lexLt_cons_same]
    exact lexLt_append_of_not_ext _ _ hname hnotext

/-- C5 counterexample: two equal-severity findings for packages chalk and
chalk2 (same version, no advisories). Alphabetically chalk comes before
chalk2, yet sortFindings outputs chalk2 first, because the concatenated
key compares the colon (58) after chalk against the digit 2 (50). This
refutes the claim that equal-severity findings are ordered alphabetically
by package name. -/
theorem C5_counterexample :
    sortFindings
      [⟨"chalk", "1.0.0", true, Severity.high, SeveritySource.osv_cvss,
          none, Confidence.high, [], [], LookupSource.osv⟩,
        ⟨"chalk2", "1.0.0", true, Severity.high, SeveritySource.osv_cvss,
          none, Confidence.high, [], [], LookupSource.osv⟩] =
      [⟨"chalk2", "1.0.0", true, Severity.high, SeveritySource.osv_cvss,
          none, Confidence.high, [], [], LookupSource.osv⟩,
        ⟨"chalk", "1.0.0", true, Severity.high, SeveritySource.osv_cvss,
          none, Confidence.high, [], [], LookupSource.osv⟩] ∧
    lexLt "chalk".data "chalk2".data = true := by
  refine ⟨?_, by decide⟩
  decide

/-- Witness for C5: the severity-dominance conjunct applied to concrete
critical and low findings. -/
theorem C5_sortFindings_order_witness :
    lexLt
      (findingKey ⟨"a", "1", true, Severity.critical,
        SeveritySource.osv_cvss, none, Confidence.high, [], [],
        LookupSource.osv⟩)
      (findingKey ⟨"b", "1", true, Severity.low,
        SeveritySource.osv_cvss, none, Confidence.high, [], [],
        LookupSource.osv⟩) = true := by
  have h := C5_sortFindings_order []
  exact h.2.2.2.2.1
    ⟨"a", "1", true, Severity.critical, SeveritySource.osv_cvss, none,
      Confidence.high, [], [], LookupSource.osv⟩
    ⟨"b", "1", true, Severity.low, SeveritySource.osv_cvss, none,
      Confidence.high, [], [], LookupSource.osv⟩
    (by decide)

/-! ## The batched OSV lookup (claim C2)

Embedding of OsvClient.batchQuery and fetchBatch (src/unnamed/part_014
lines 85-192). The on-disk cache read is abstracted by cacheRead (some
models a fresh, parseable cache file, including an empty advisory list,
which is truthy in the JS guard; none models a miss, an expired file, a
read error or refreshCache). The HTTP exchange of fetchBatch is abstracted
by outcome: none models the catch branch entered on any non-2xx status,
timeout abort or other exception, and makes fetchBatch return the empty
map exactly as line 188 does, so no network error ever propagates to
batchQuery's caller; some results models a parsed 200 body aligned
positionally with the queue, with the vulnerabilities already normalized
and, when fallbacks ran, enriched. Cache writes are dropped as they do
not affect the returned map. -/

/-- A (name, version) query, the element type of batchQuery's argument. -/
structure Pkg where
  name : String
  version : String
deriving DecidableEq, Repr

/-- The response key: the interpolation of name @ version. -/
def pkgKey (p : Pkg) : String := p.name ++ "@" ++ p.version

/-- JS Map.set: replace in place, else append. -/
def mapSet (m : List (String × β)) (k : String) (v : β) :
    List (String × β) :=
  match m with
  | [] => [(k, v)]
  | (k0, v0) :: rest =>
    if k0 = k then (k0, v) :: rest else (k0, v0) :: mapSet rest k v

/-- The cache-or-enqueue pass of batchQuery (part_014 lines 90-103):
returns the partially filled response map and the fetch queue. -/
def classifyPhase (packages : List Pkg)
    (cacheRead : Pkg → Option (List OsvVulnerability)) (offline : Bool) :
    List (String × OsvLookupResult) × List Pkg :=
  packages.foldl (fun acc pkg =>
    match cacheRead pkg with
    | some cached =>
      (mapSet acc.1 (pkgKey pkg) ⟨LookupSource.cache, cached⟩, acc.2)
    | none =>
      if offline then
        (mapSet acc.1 (pkgKey pkg) ⟨LookupSource.unknown, []⟩, acc.2)
      else (acc.1, acc.2 ++ [pkg])) ([], [])

/-- Embeds fetchBatch (part_014 lines 122-192) under the outcome
abstraction: the empty map on failure, the positionally aligned key-to
vulnerability-list map on success (missing positions default to []). -/
def fetchBatch (packages : List Pkg)
    (outcome : Option (List (List OsvVulnerability))) :
    List (String × List OsvVulnerability) :=
  match outcome with
  | none => []
  | some results =>
    (List.range packages.length).foldl (fun m i =>
      match packages.get? i with
      | none => m
      | some pkg => mapSet m (pkgKey pkg) ((results.get? i).getD [])) []

/-- Embeds batchQuery (part_014 lines 85-120): classify against the cache,
fetch the queue in one batch, merge the fetched lists as source osv, then
record every enqueued package whose key is still absent as
source unknown with no vulnerabilities. -/
def batchQuery (packages : List Pkg)
    (cacheRead : Pkg → Option (List OsvVulnerability)) (offline : Bool)
    (outcome : Option (List (List OsvVulnerability))) :
    List (String × OsvLookupResult) :=
  let phase1 := classifyPhase packages cacheRead offline
  let response :=
    if 0 < phase1.2.length then
      (fetchBatch phase1.2 outcome).foldl
        (fun m kv => mapSet m kv.1 ⟨LookupSource.osv, kv.2⟩) phase1.1
    else phase1.1
  phase1.2.foldl (fun m pkg =>
    if (lookupStr m (pkgKey pkg)).isSome then m
    else mapSet m (pkgKey pkg) ⟨LookupSource.unknown, []⟩) response

theorem lookupStr_mapSet_self (m : List (String × β)) (k : String) (v : β) :
    lookupStr (mapSet m k v) k = some v := by
  induction m with
  | nil => simp [mapSet, lookupStr]
  | cons p rest ih =>
    by_cases h : p.1 = k
    · simp [mapSet, h, lookupStr]
    · rw [show mapSet (p :: rest) k v = p :: mapSet rest k v by
        cases p; simp [mapSet, h]]
      rw [lookupStr, List.find?]
      rw [show (decide (p.1 = k)) = false by simp [h]]
      exact ih

theorem lookupStr_mapSet_ne (m : List (String × β)) (k k' : String) (v : β)
    (h : k' ≠ k) : lookupStr (mapSet m k v) k' = lookupStr m k' := by
  induction m with
  | nil => simp [mapSet, lookupStr, List.find?, Ne.symm h]
  | cons p rest ih =>
    by_cases hp : p.1 = k
    · cases p with
      | mk k0 v0 =>
        simp only at hp
        subst hp
        simp [mapSet, lookupStr, List.find?, Ne.symm h]
    · rw [show mapSet (p :: rest) k v = p :: mapSet rest k v by
        cases p; simp [mapSet, hp]]
      rw [lookupStr, lookupStr, List.find?, List.find?]
      cases hd : decide (p.1 = k')
      · exact ih
      · rfl

/-- Any key classified by the online cache pass comes from a cache hit of
some input package with that key. -/
theorem classify_lookup_some
    (cacheRead : Pkg → Option (List OsvVulnerability)) :
    ∀ (packages : List Pkg) (m : List (String × OsvLookupResult))
      (t : List Pkg) (k : String) (r : OsvLookupResult),
      lookupStr (packages.foldl (fun acc pkg =>
        match cacheRead pkg with
        | some cached =>
          (mapSet acc.1 (pkgKey pkg) ⟨LookupSource.cache, cached⟩, acc.2)
        | none => (acc.1, acc.2 ++ [pkg])) (m, t)).1 k = some r →
      lookupStr m k = some r ∨
        ∃ q ∈ packages, (cacheRead q).isSome ∧ pkgKey q = k := by
  intro packages
  induction packages with
  | nil =>
    intro m t k r h
    exact Or.inl h
  | cons q rest ih =>
    intro m t k r h
    rw [List.foldl_cons] at h
    cases hc : cacheRead q with
    | some cached =>
      rw [hc] at h
      rcases ih _ _ k r h with h1 | ⟨w, hw, hws, hwk⟩
      · by_cases hk : pkgKey q = k
        · exact Or.inr ⟨q, List.mem_cons_self q rest, by simp [hc], hk⟩
        · rw [lookupStr_mapSet_ne _ _ _ _ (fun he => hk he.symm)] at h1
          exact Or.inl h1
      · exact Or.inr ⟨w, List.mem_cons_of_mem q hw, hws, hwk⟩
    | none =>
      rw [hc] at h
      rcases ih _ _ k r h with h1 | ⟨w, hw, hws, hwk⟩
      · exact Or.inl h1
      · exact Or.inr ⟨w, List.mem_cons_of_mem q hw, hws, hwk⟩

/-- The backfill loop preserves an unknown classification at a key. -/
theorem backfill_preserve (k : String) :
    ∀ (tf : List Pkg) (m : List (String × OsvLookupResult)),
      lookupStr m k = some ⟨LookupSource.unknown, []⟩ →
      lookupStr (tf.foldl (fun m pkg =>
        if (lookupStr m (pkgKey pkg)).isSome then m
        else mapSet m (pkgKey pkg) ⟨LookupSource.unknown, []⟩) m) k =
        some ⟨LookupSource.unknown, []⟩ := by
  intro tf
  induction tf with
  | nil => intro m h; exact h
  | cons p rest ih =>
    intro m h
    rw [List.foldl_cons]
    by_cases hk : pkgKey p = k
    · rw [hk]
      rw [show (lookupStr m k).isSome = true by rw [h]; rfl, if_pos rfl]
      exact ih m h
    · by_cases hs : (lookupStr m (pkgKey p)).isSome = true
      · rw [if_pos hs]
        exact ih m h
      · rw [if_neg hs]
        refine ih _ ?_
        rw [lookupStr_mapSet_ne _ _ _ _ (fun he => hk he.symm)]
        exact h

/-- The backfill loop classifies the key of every queued package that is
not already classified as the unknown result. -/
theorem backfill_sets_unknown :
    ∀ (tf : List Pkg) (m : List (String × OsvLookupResult)) (pkg : Pkg),
      pkg ∈ tf →
      (lookupStr m (pkgKey pkg) = none ∨
        lookupStr m (pkgKey pkg) = some ⟨LookupSource.unknown, []⟩) →
      lookupStr (tf.foldl (fun m pkg =>
        if (lookupStr m (pkgKey pkg)).isSome then m
        else mapSet m (pkgKey pkg) ⟨LookupSource.unknown, []⟩) m)
        (pkgKey pkg) = some ⟨LookupSource.unknown, []⟩ := by
  intro tf
  induction tf with
  | nil =>
    intro m pkg hmem
    exact absurd hmem (List.not_mem_nil pkg)
  | cons p rest ih =>
    intro m pkg hmem hst
    rw [List.foldl_cons]
    by_cases hk : pkgKey p = pkgKey pkg
    · rw [hk]
      rcases hst with hn | hu
      · rw [show (lookupStr m (pkgKey pkg)).isSome = false by
          rw [hn]; rfl]
        rw [if_neg (by simp)]
        exact backfill_preserve (pkgKey pkg) rest _
          (lookupStr_mapSet_self m (pkgKey pkg) _)
      · rw [show (lookupStr m (pkgKey pkg)).isSome = true by
          rw [hu]; rfl, if_pos rfl]
        exact backfill_preserve (pkgKey pkg) rest m hu
    · have hmem' : pkg ∈ rest := by
        rcases List.mem_cons.mp hmem with rfl | h
        · exact absurd rfl hk
        · exact h
      by_cases hs : (lookupStr m (pkgKey p)).isSome = true
      · rw [if_pos hs]
        exact ih m pkg hmem' hst
      · rw [if_neg hs]
        refine ih _ pkg hmem' ?_
        rw [lookupStr_mapSet_ne _ _ _ _ (fun he => hk he.symm)]
        exact hst

/-- C2 amended: on an online scan, when the single batched request fails
(non-2xx, timeout or exception), fetchBatch returns the empty map and
batchQuery records every enqueued package that is still unclassified,
that is, whose key was not claimed by a cache hit of a colliding key, as
source unknown with no vulnerabilities; no partial retry occurs and no
network error propagates, since the embedded batchQuery is a total
function of the failure outcome. When all package keys are distinct the
collision proviso is vacuous and every enqueued package is so recorded. -/
theorem C2_batch_failure_unknown (packages : List Pkg)
    (cacheRead : Pkg → Option (List OsvVulnerability)) (pkg : Pkg)
    (hq : pkg ∈ (classifyPhase packages cacheRead false).2)
    (hnc : ∀ q ∈ packages, pkgKey q = pkgKey pkg → cacheRead q = none) :
    lookupStr (batchQuery packages cacheRead false none) (pkgKey pkg) =
      some ⟨LookupSource.unknown, []⟩ := by
  have hresp : lookupStr (classifyPhase packages cacheRead false).1
      (pkgKey pkg) = none := by
    cases hl : lookupStr (classifyPhase packages cacheRead false).1
        (pkgKey pkg) with
    | none => rfl
    | some r =>
      have := classify_lookup_some cacheRead packages [] [] (pkgKey pkg) r
        (by exact hl)
      rcases this with h1 | ⟨w, hw, hws, hwk⟩
      · simp [lookupStr] at h1
      · rw [hnc w hw hwk] at hws
        simp at hws
  show lookupStr ((classifyPhase packages cacheRead false).2.foldl _ _)
      (pkgKey pkg) = _
  have hr2 : (if 0 < (classifyPhase packages cacheRead false).2.length then
      (fetchBatch (classifyPhase packages cacheRead false).2 none).foldl
        (fun m kv => mapSet m kv.1 ⟨LookupSource.osv, kv.2⟩)
        (classifyPhase packages cacheRead false).1
    else (classifyPhase packages cacheRead false).1) =
      (classifyPhase packages cacheRead false).1 := by
    cases h : decide
        (0 < (classifyPhase packages cacheRead false).2.length) with
    | true =>
      rw [if_pos (of_decide_eq_true h)]
      simp [fetchBatch]
    | false => rw [if_neg (of_decide_eq_false h)]
  rw [hr2]
  exact backfill_sets_unknown _ _ pkg hq (Or.inl hresp)

/-- C2 counterexample: the claim as stated says every enqueued package
becomes source unknown on batch failure, with no proviso. Two packages
whose keys collide ("a" at version "b@c" and "a@b" at version "c" both key
to "a@b@c") refute it: the first hits the cache, the second is enqueued,
the batch fails, and the backfill skips the colliding key, so the enqueued
package's key still reads source cache. -/
theorem C2_counterexample :
    batchQuery [⟨"a", "b@c"⟩, ⟨"a@b", "c"⟩]
      (fun p => if p = ⟨"a", "b@c"⟩ then some [] else none) false none =
      [("a@b@c", ⟨LookupSource.cache, []⟩)] ∧
    (classifyPhase [⟨"a", "b@c"⟩, ⟨"a@b", "c"⟩]
      (fun p => if p = ⟨"a", "b@c"⟩ then some [] else none) false).2 =
      [⟨"a@b", "c"⟩] ∧
    pkgKey ⟨"a@b", "c"⟩ = "a@b@c" ∧
    lookupStr (batchQuery [⟨"a", "b@c"⟩, ⟨"a@b", "c"⟩]
      (fun p => if p = ⟨"a", "b@c"⟩ then some [] else none) false none)
      (pkgKey ⟨"a@b", "c"⟩) ≠
      some ⟨LookupSource.unknown, []⟩ := by
  refine ⟨by decide, by decide, by decide, by decide⟩

/-- Witness for C2: a single enqueued package with an all-miss cache is
recorded as unknown after a failed batch. -/
theorem C2_batch_failure_unknown_witness :
    lookupStr (batchQuery [⟨"a", "1"⟩] (fun _ => none) false none)
      (pkgKey ⟨"a", "1"⟩) = some ⟨LookupSource.unknown, []⟩ :=
  C2_batch_failure_unknown [⟨"a", "1"⟩] (fun _ => none) ⟨"a", "1"⟩
    (by decide) (by intro q hq hk; rfl)

/-! ## The npm lockfile entry pass (claim C6)

Embedding of parseNpmLock's packages-object loop for lockfileVersion >= 2
(packages/core/src/lock-parser.ts lines 46-59) together with its helpers
getPackageNameFromPath (lines 279-293) and isDirectPackagePath (lines
295-306). The legacy dependencies fallback (lines 62-64) is outside the
claim and not modelled. Keys and versions are JS strings, modelled as
`List Char`. -/

/-- s.startsWith(pat) on character lists. -/
def startsWithL : List Char → List Char → Bool
  | _, [] => true
  | [], _ :: _ => false
  | c :: cs, p :: ps => if p = c then startsWithL cs ps else false

/-- The characters after the last occurrence of pat in s (none when pat
does not occur): s.slice(s.lastIndexOf(pat) + pat.length) guarded by a
prior occurrence check. -/
def lastOccSuffix (pat : List Char) : List Char → Option (List Char)
  | [] => none
  | c :: rest =>
    match lastOccSuffix pat rest with
    | some r => some r
    | none =>
      if startsWithL (c :: rest) pat then
        some (List.drop pat.length (c :: rest))
      else none

/-- pat occurs somewhere in s as a contiguous subsequence. -/
def containsSeq (pat : List Char) : List Char → Bool
  | [] => decide (pat = [])
  | c :: rest => startsWithL (c :: rest) pat || containsSeq pat rest

/-- s.split(sep) with JS semantics: always at least one (possibly empty)
segment. -/
def splitOnChar (sep : Char) : List Char → List (List Char)
  | [] => [[]]
  | c :: rest =>
    let r := splitOnChar sep rest
    if c = sep then [] :: r
    else
      match r with
      | h :: t => (c :: h) :: t
      | [] => [[c]]

/-- The string literal node_modules/ as a character list. -/
def nmSlash : List Char := "node_modules/".data

/-- Embeds getPackageNameFromPath (lock-parser.ts lines 279-293). A JS
null return is none; the falsy check on the second segment of a scoped
candidate (line 288) fires both when that segment is missing and when it
is the empty string; the JS empty-string return (first segment empty) is
some []. -/
def getPackageNameFromPath (pkgPath : List Char) : Option (List Char) :=
  if startsWithL pkgPath nmSlash = false then none
  else
    match lastOccSuffix nmSlash pkgPath with
    | none => none
    | some candidate =>
      if candidate = [] then none
      else
        match splitOnChar '/' candidate with
        | [] => none
        | p0 :: ps =>
          if startsWithL p0 ['@'] then
            match ps with
            | [] => none
            | p1 :: _ =>
              if p1 = [] then none else some (p0 ++ '/' :: p1)
          else some p0

/-- Embeds isDirectPackagePath (lock-parser.ts lines 295-306). -/
def isDirectPackagePath (pkgPath : List Char) : Bool :=
  if startsWithL pkgPath nmSlash = false then false
  else
    let rel := List.drop nmSlash.length pkgPath
    if rel = [] then false
    else
      match splitOnChar '/' rel with
      | [] => false
      | s0 :: rest =>
        if startsWithL s0 ['@'] then decide ((s0 :: rest).length = 2)
        else decide ((s0 :: rest).length = 1)

/-- DependencyNode over character lists, for the lockfile pass. -/
structure DepNodeL where
  name : List Char
  version : List Char
  direct : Bool
deriving DecidableEq, Repr

/-- Map get over character-list keys. -/
def lookupL (m : List (List Char × β)) (k : List Char) : Option β :=
  (m.find? (fun p => decide (p.1 = k))).map (fun p => p.2)

/-- Map set over character-list keys: replace in place, else append. -/
def mapSetL (m : List (List Char × β)) (k : List Char) (v : β) :
    List (List Char × β) :=
  match m with
  | [] => [(k, v)]
  | (k0, v0) :: rest =>
    if k0 = k then (k0, v) :: rest else (k0, v0) :: mapSetL rest k v

/-- The insert-or-upgrade step of the packages loop once name and version
have passed the guards: first occurrence inserts a node with the entry's
direct flag, a later direct occurrence upgrades direct to true, anything
else is a no-op (lock-parser.ts lines 51-58 and upsert logic). -/
def npmEntryInsert (m : List (List Char × DepNodeL))
    (e : List Char × Option (List Char)) (name version : List Char) :
    List (List Char × DepNodeL) :=
  match lookupL m (name ++ '@' :: version) with
  | none =>
    mapSetL m (name ++ '@' :: version)
      ⟨name, version, isDirectPackagePath e.1⟩
  | some existing =>
    if isDirectPackagePath e.1 && !existing.direct then
      mapSetL m (name ++ '@' :: version)
        ⟨existing.name, existing.version, true⟩
    else m

/-- The guards of the packages loop after a name was extracted: skip on an
empty name (the JS falsy string), a missing version or an empty version
(lock-parser.ts line 49), else insert or upgrade. -/
def npmEntryWithName (m : List (List Char × DepNodeL))
    (e : List Char × Option (List Char)) (name : List Char) :
    List (List Char × DepNodeL) :=
  if name = [] then m
  else
    match e.2 with
    | none => m
    | some version =>
      if version = [] then m
      else npmEntryInsert m e name version

/-- The body of the packages loop for one entry (key, optional version):
skip the entry when no name is extracted, otherwise run the guards and
the insert-or-upgrade (lock-parser.ts lines 47-59, staged into the two
helpers above). -/
def npmEntryStep (m : List (List Char × DepNodeL))
    (e : List Char × Option (List Char)) : List (List Char × DepNodeL) :=
  match getPackageNameFromPath e.1 with
  | none => m
  | some name => npmEntryWithName m e name

/-- The packages-object pass of parseNpmLock (lock-parser.ts lines 46-59,
applied when lockfileVersion >= 2 and a packages object is present):
fold the entries of lock.packages in object order into the dedupe map and
return [...map.values()]. -/
def npmPackagesPass (entries : List (List Char × Option (List Char))) :
    List DepNodeL :=
  (entries.foldl npmEntryStep []).map (fun p => p.2)

/-- C6 counterexample: the lockfile entry node_modules/@node_modules/x
(a scope literally named @node_modules). The name is extracted from the
substring after the LAST occurrence of node_modules/, which here lies
inside the scope segment, giving name x; yet the direct check looks at
the segments after the FIRST node_modules/ prefix and sees a two-segment
scoped path, classifying the entry as direct. The claim's rule — direct
exactly when the key equals node_modules/<name> — fails: the key is not
node_modules/x. The trailing conjuncts record the falsy second-segment
guard of the scoped branch: a scoped candidate whose second segment is
empty (not merely missing) yields no name and the entry is skipped. -/
theorem C6_counterexample :
    npmPackagesPass
      [("".data, none),
        ("node_modules/@node_modules/x".data, some "1.0.0".data)] =
      [⟨"x".data, "1.0.0".data, true⟩] ∧
    isDirectPackagePath "node_modules/@node_modules/x".data = true ∧
    getPackageNameFromPath "node_modules/@node_modules/x".data =
      some "x".data ∧
    "node_modules/@node_modules/x".data ≠ nmSlash ++ "x".data ∧
    getPackageNameFromPath "node_modules/@scope/".data = none ∧
    getPackageNameFromPath "node_modules/@a//b".data = none ∧
    npmPackagesPass
      [("node_modules/@scope/".data, some "1.0.0".data)] = [] := by
  refine ⟨by decide, by decide, by decide, by decide, by decide,
    by decide, by decide⟩

/-! ### Decomposition facts for the path helpers -/

theorem startsWithL_append :
    ∀ {s pat : List Char}, startsWithL s pat = true →
      s = pat ++ List.drop pat.length s
  | s, [], _ => by simp
  | [], _ :: _, h => by simp [startsWithL] at h
  | c :: cs, p :: ps, h => by
    rw [startsWithL] at h
    by_cases hpc : p = c
    · subst hpc
      rw [if_pos rfl] at h
      simp only [List.length_cons, List.drop_succ_cons, List.cons_append,
        List.cons.injEq]
      exact ⟨trivial, startsWithL_append h⟩
    · rw [if_neg hpc] at h
      simp at h

theorem containsSeq_eq_false_of_lastOccSuffix_none (pat : List Char)
    (hpat : pat ≠ []) :
    ∀ s, lastOccSuffix pat s = none → containsSeq pat s = false
  | [], _ => by simp [containsSeq, hpat]
  | c :: rest, h => by
    rw [lastOccSuffix] at h
    cases hr : lastOccSuffix pat rest with
    | some r =>
      rw [hr] at h
      simp at h
    | none =>
      rw [hr] at h
      by_cases hs : startsWithL (c :: rest) pat = true
      · rw [if_pos hs] at h
        simp at h
      · rw [containsSeq, Bool.or_eq_false_iff]
        exact ⟨by simpa using hs,
          containsSeq_eq_false_of_lastOccSuffix_none pat hpat rest hr⟩

theorem containsSeq_drop_eq_false (pat : List Char) (hpat : pat ≠ []) :
    ∀ (n : Nat) (s : List Char), containsSeq pat s = false →
      containsSeq pat (List.drop n s) = false
  | 0, _, h => h
  | _ + 1, [], h => h
  | n + 1, c :: rest, h => by
    rw [List.drop_succ_cons]
    rw [containsSeq, Bool.or_eq_false_iff] at h
    exact containsSeq_drop_eq_false pat hpat n rest h.2

theorem lastOccSuffix_decomp (pat : List Char) (hpat : pat ≠ []) :
    ∀ (s suf : List Char), lastOccSuffix pat s = some suf →
      ∃ pre, s = pre ++ pat ++ suf ∧ containsSeq pat suf = false
  | [], _, h => by simp [lastOccSuffix] at h
  | c :: rest, suf, h => by
    rw [lastOccSuffix] at h
    cases hr : lastOccSuffix pat rest with
    | some r =>
      rw [hr] at h
      have hrs : r = suf := by injection h
      subst hrs
      obtain ⟨pre, hpre, hcf⟩ := lastOccSuffix_decomp pat hpat rest r hr
      exact ⟨c :: pre, by simp [hpre], hcf⟩
    | none =>
      rw [hr] at h
      by_cases hs : startsWithL (c :: rest) pat = true
      · rw [if_pos hs] at h
        have hsuf : List.drop pat.length (c :: rest) = suf := by injection h
        refine ⟨[], ?_, ?_⟩
        · rw [List.nil_append, ← hsuf]
          exact startsWithL_append hs
        · cases pat with
          | nil => exact absurd rfl hpat
          | cons p ps =>
            rw [← hsuf, List.length_cons, List.drop_succ_cons]
            exact containsSeq_drop_eq_false (p :: ps) hpat ps.length rest
              (containsSeq_eq_false_of_lastOccSuffix_none (p :: ps) hpat
                rest hr)
      · rw [if_neg hs] at h
        simp at h

theorem splitOnChar_cons (sep c : Char) (rest : List Char) :
    splitOnChar sep (c :: rest) =
      if c = sep then [] :: splitOnChar sep rest
      else
        match splitOnChar sep rest with
        | h :: t => (c :: h) :: t
        | [] => [[c]] := rfl

theorem splitOnChar_ne_nil (sep : Char) : ∀ s, splitOnChar sep s ≠ []
  | [] => by simp [splitOnChar]
  | c :: rest => by
    rw [splitOnChar_cons]
    by_cases hc : c = sep
    · rw [if_pos hc]
      simp
    · rw [if_neg hc]
      cases hr : splitOnChar sep rest with
      | nil => simp
      | cons h t => simp

theorem splitOnChar_sep_not_mem (sep : Char) :
    ∀ (s : List Char), ∀ seg ∈ splitOnChar sep s, sep ∉ seg
  | [], seg, hseg => by
    simp only [splitOnChar, List.mem_singleton] at hseg
    subst hseg
    simp
  | c :: rest, seg, hseg => by
    rw [splitOnChar_cons] at hseg
    by_cases hc : c = sep
    · rw [if_pos hc] at hseg
      rcases List.mem_cons.mp hseg with rfl | hseg'
      · simp
      · exact splitOnChar_sep_not_mem sep rest seg hseg'
    · rw [if_neg hc] at hseg
      cases hr : splitOnChar sep rest with
      | nil => exact absurd hr (splitOnChar_ne_nil sep rest)
      | cons h t =>
        rw [hr] at hseg
        rcases List.mem_cons.mp hseg with rfl | hseg'
        · intro hmem
          rcases List.mem_cons.mp hmem with h1 | h1
          · exact hc h1.symm
          · exact splitOnChar_sep_not_mem sep rest h
              (hr ▸ List.mem_cons_self h t) h1
        · exact splitOnChar_sep_not_mem sep rest seg
            (hr ▸ List.mem_cons_of_mem h hseg')

theorem splitOnChar_no_sep (sep : Char) :
    ∀ (x : List Char), sep ∉ x → splitOnChar sep x = [x]
  | [], _ => rfl
  | c :: x, h => by
    rw [splitOnChar_cons,
      if_neg (fun hc => h (by rw [← hc]; exact List.mem_cons_self c x)),
      splitOnChar_no_sep sep x (fun hm => h (List.mem_cons_of_mem c hm))]

theorem splitOnChar_append_sep (sep : Char) :
    ∀ (x y : List Char), sep ∉ x →
      splitOnChar sep (x ++ sep :: y) = x :: splitOnChar sep y
  | [], y, _ => by
    rw [List.nil_append, splitOnChar_cons, if_pos rfl]
  | c :: x, y, h => by
    rw [List.cons_append, splitOnChar_cons,
      if_neg (fun hc => h (by rw [← hc]; exact List.mem_cons_self c x)),
      splitOnChar_append_sep sep x y
        (fun hm => h (List.mem_cons_of_mem c hm))]

theorem eq_of_splitOnChar_single (sep : Char) :
    ∀ (s a : List Char), splitOnChar sep s = [a] → s = a
  | [], a, h => by
    simp only [splitOnChar, List.cons.injEq] at h
    exact h.1
  | c :: rest, a, h => by
    rw [splitOnChar_cons] at h
    by_cases hc : c = sep
    · rw [if_pos hc] at h
      have h2 : splitOnChar sep rest = [] := by
        have := (List.cons.injEq _ _ _ _).mp h
        exact this.2
      exact absurd h2 (splitOnChar_ne_nil sep rest)
    · rw [if_neg hc] at h
      cases hr : splitOnChar sep rest with
      | nil => exact absurd hr (splitOnChar_ne_nil sep rest)
      | cons hh tt =>
        rw [hr] at h
        have h2 := (List.cons.injEq _ _ _ _).mp h
        have hrest : rest = hh := by
          refine eq_of_splitOnChar_single sep rest hh ?_
          rw [hr, h2.2]
        rw [hrest, h2.1]

theorem eq_of_splitOnChar_pair (sep : Char) :
    ∀ (s a b : List Char), splitOnChar sep s = [a, b] →
      s = a ++ sep :: b
  | [], a, b, h => by simp [splitOnChar] at h
  | c :: rest, a, b, h => by
    rw [splitOnChar_cons] at h
    by_cases hc : c = sep
    · rw [if_pos hc] at h
      have h2 := (List.cons.injEq _ _ _ _).mp h
      have hrest : rest = b := by
        refine eq_of_splitOnChar_single sep rest b ?_
        rw [h2.2]
      rw [hrest, ← h2.1, hc]
      rfl
    · rw [if_neg hc] at h
      cases hr : splitOnChar sep rest with
      | nil => exact absurd hr (splitOnChar_ne_nil sep rest)
      | cons hh tt =>
        rw [hr] at h
        have h2 := (List.cons.injEq _ _ _ _).mp h
        have hrest : rest = hh ++ sep :: b := by
          refine eq_of_splitOnChar_pair sep rest hh b ?_
          rw [hr, h2.2]
        rw [hrest, ← h2.1]
        rfl

/-- The per-candidate segment selection of the code: of the substring
after the last node_modules/ occurrence, a scoped candidate (leading @)
consumes its first two path segments provided the second is present and
nonempty (mirroring the falsy check on line 288), otherwise one. -/
def specSegName (candidate : List Char) : Option (List Char) :=
  match splitOnChar '/' candidate with
  | [] => none
  | p0 :: ps =>
    if startsWithL p0 ['@'] then
      match ps with
      | [] => none
      | p1 :: _ =>
        if p1 = [] then none else some (p0 ++ '/' :: p1)
    else some p0

theorem gp_startsWith (key name : List Char)
    (hgp : getPackageNameFromPath key = some name) :
    startsWithL key nmSlash = true := by
  by_contra h
  have hf : startsWithL key nmSlash = false := by
    cases hb : startsWithL key nmSlash
    · rfl
    · exact absurd hb h
  rw [getPackageNameFromPath, if_pos hf] at hgp
  exact Option.noConfusion hgp

theorem gp_lastOcc (key name : List Char)
    (hgp : getPackageNameFromPath key = some name) :
    ∃ cand, lastOccSuffix nmSlash key = some cand := by
  cases hl : lastOccSuffix nmSlash key with
  | none =>
    rw [getPackageNameFromPath,
      if_neg (by rw [gp_startsWith key name hgp]; simp), hl] at hgp
    exact Option.noConfusion hgp
  | some cand => exact ⟨cand, rfl⟩

theorem gp_eq_of_lastOcc (key cand : List Char)
    (hsw : startsWithL key nmSlash = true)
    (hlast : lastOccSuffix nmSlash key = some cand) :
    getPackageNameFromPath key =
      (if cand = [] then none else specSegName cand) := by
  rw [getPackageNameFromPath, if_neg (by rw [hsw]; simp), hlast]
  rfl

/-- The extraction rule of the claim: every extracted name comes from the
substring after the LAST occurrence of node_modules/ (no further
occurrence follows it), by the scoped-two-segments-else-one rule. -/
theorem gp_extraction (key name : List Char)
    (hgp : getPackageNameFromPath key = some name) :
    ∃ pre suf, key = pre ++ nmSlash ++ suf ∧
      containsSeq nmSlash suf = false ∧ suf ≠ [] ∧
      specSegName suf = some name := by
  have hsw := gp_startsWith key name hgp
  obtain ⟨cand, hlast⟩ := gp_lastOcc key name hgp
  rw [gp_eq_of_lastOcc key cand hsw hlast] at hgp
  by_cases hc : cand = []
  · rw [if_pos hc] at hgp
    exact Option.noConfusion hgp
  · rw [if_neg hc] at hgp
    obtain ⟨pre, hpre, hcf⟩ :=
      lastOccSuffix_decomp nmSlash (by decide) key cand hlast
    exact ⟨pre, cand, hpre, hcf, hc, hgp⟩

/-- The amended direct rule: when the leading node_modules/ prefix is also
the last occurrence in the key (no nested node_modules and no scope
segment ending in node_modules), an entry is direct exactly when its key
is node_modules/<extracted name>. -/
theorem isDirect_iff_key_eq (key name : List Char)
    (hgp : getPackageNameFromPath key = some name)
    (hlast : lastOccSuffix nmSlash key =
      some (List.drop nmSlash.length key)) :
    isDirectPackagePath key = true ↔ key = nmSlash ++ name := by
  have hsw := gp_startsWith key name hgp
  have hkey : key = nmSlash ++ List.drop nmSlash.length key :=
    startsWithL_append hsw
  rw [gp_eq_of_lastOcc key (List.drop nmSlash.length key) hsw hlast] at hgp
  by_cases hc : List.drop nmSlash.length key = []
  · rw [if_pos hc] at hgp
    exact absurd hgp (by simp)
  rw [if_neg hc, specSegName] at hgp
  have hid : isDirectPackagePath key =
      (if List.drop nmSlash.length key = [] then false
       else
         match splitOnChar '/' (List.drop nmSlash.length key) with
         | [] => false
         | s0 :: rest =>
           if startsWithL s0 ['@'] then decide ((s0 :: rest).length = 2)
           else decide ((s0 :: rest).length = 1)) := by
    rw [isDirectPackagePath, if_neg (by rw [hsw]; simp)]
  rw [if_neg hc] at hid
  cases hsplit : splitOnChar '/' (List.drop nmSlash.length key) with
  | nil => exact absurd hsplit (splitOnChar_ne_nil '/' _)
  | cons p0 ps =>
    rw [hsplit] at hgp
    have hid2 : isDirectPackagePath key =
        (if startsWithL p0 ['@'] then decide ((p0 :: ps).length = 2)
         else decide ((p0 :: ps).length = 1)) := by
      rw [hid, hsplit]
    have hp0mem : p0 ∈ splitOnChar '/' (List.drop nmSlash.length key) := by
      rw [hsplit]
      exact List.mem_cons_self p0 ps
    have hp0sep : '/' ∉ p0 := splitOnChar_sep_not_mem '/' _ p0 hp0mem
    cases ps with
    | nil =>
      have hgp2 : (if startsWithL p0 ['@'] then (none : Option (List Char))
          else some p0) = some name := hgp
      by_cases hat : startsWithL p0 ['@'] = true
      · rw [if_pos hat] at hgp2
        exact Option.noConfusion hgp2
      · have hatf : startsWithL p0 ['@'] = false := by
          cases hb : startsWithL p0 ['@']
          · rfl
          · exact absurd hb hat
        rw [hatf, if_neg (by simp)] at hgp2
        rw [hid2, hatf, if_neg (by simp)]
        have hname : p0 = name := Option.some.inj hgp2
        constructor
        · intro _
          have hrel : List.drop nmSlash.length key = p0 :=
            eq_of_splitOnChar_single '/' _ p0 hsplit
          rw [hkey, hrel, hname]
        · intro _
          rfl
    | cons p1 ps2 =>
      have hgp2 : (if startsWithL p0 ['@'] then
          (if p1 = [] then none else some (p0 ++ '/' :: p1))
          else some p0) = some name := hgp
      have hp1mem : p1 ∈ splitOnChar '/'
          (List.drop nmSlash.length key) := by
        rw [hsplit]
        exact List.mem_cons_of_mem p0 (List.mem_cons_self p1 ps2)
      have hp1sep : '/' ∉ p1 := splitOnChar_sep_not_mem '/' _ p1 hp1mem
      by_cases hat : startsWithL p0 ['@'] = true
      · rw [if_pos hat] at hgp2
        by_cases hp1 : p1 = []
        · rw [if_pos hp1] at hgp2
          exact absurd hgp2 (by simp)
        rw [if_neg hp1] at hgp2
        rw [hid2, if_pos hat]
        have hname : p0 ++ '/' :: p1 = name := Option.some.inj hgp2
        constructor
        · intro hlen
          have hps2 : ps2 = [] := by
            have := of_decide_eq_true hlen
            simpa using this
          subst hps2
          have hrel : List.drop nmSlash.length key = p0 ++ '/' :: p1 :=
            eq_of_splitOnChar_pair '/' _ p0 p1 hsplit
          rw [hkey, hrel, hname]
        · intro hke
          have hrel : List.drop nmSlash.length key = name := by
            have h1 : nmSlash ++ List.drop nmSlash.length key =
                nmSlash ++ name := by rw [← hkey, hke]
            exact List.append_cancel_left h1
          have hsplit2 : splitOnChar '/'
              (List.drop nmSlash.length key) = [p0, p1] := by
            rw [hrel, ← hname, splitOnChar_append_sep '/' p0 p1 hp0sep,
              splitOnChar_no_sep '/' p1 hp1sep]
          rw [hsplit] at hsplit2
          have hps : ps2 = [] := by
            have h1 := (List.cons.injEq _ _ _ _).mp hsplit2
            have h2 := (List.cons.injEq _ _ _ _).mp h1.2
            exact h2.2
          subst hps
          rfl
      · have hatf : startsWithL p0 ['@'] = false := by
          cases hb : startsWithL p0 ['@']
          · rfl
          · exact absurd hb hat
        rw [hatf, if_neg (by simp)] at hgp2
        rw [hid2, hatf, if_neg (by simp)]
        have hname : p0 = name := Option.some.inj hgp2
        constructor
        · intro hlen
          have := of_decide_eq_true hlen
          simp at this
        · intro hke
          have hrel : List.drop nmSlash.length key = p0 := by
            have h1 : nmSlash ++ List.drop nmSlash.length key =
                nmSlash ++ name := by rw [← hkey, hke]
            rw [List.append_cancel_left h1, hname]
          have hsplit2 : splitOnChar '/'
              (List.drop nmSlash.length key) = [p0] := by
            rw [hrel, splitOnChar_no_sep '/' p0 hp0sep]
          rw [hsplit] at hsplit2
          have hps := (List.cons.injEq _ _ _ _).mp hsplit2
          exact absurd hps.2 (by simp)

/-! ### The dedupe map of the packages pass -/

theorem lookupL_cons (k0 : List Char) (v0 : β)
    (rest : List (List Char × β)) (k : List Char) :
    lookupL ((k0, v0) :: rest) k =
      if k0 = k then some v0 else lookupL rest k := by
  rw [lookupL, List.find?]
  by_cases h : k0 = k
  · rw [if_pos h, show decide ((k0, v0).1 = k) = true from decide_eq_true h]
    rfl
  · rw [if_neg h, show decide ((k0, v0).1 = k) = false from
      decide_eq_false h]
    rfl

theorem mapSetL_cons (k0 : List Char) (v0 : β)
    (rest : List (List Char × β)) (k : List Char) (v : β) :
    mapSetL ((k0, v0) :: rest) k v =
      if k0 = k then (k0, v) :: rest
      else (k0, v0) :: mapSetL rest k v := rfl

theorem mapSetL_append_of_none (k : List Char) (v : β) :
    ∀ m : List (List Char × β), lookupL m k = none →
      mapSetL m k v = m ++ [(k, v)]
  | [], _ => rfl
  | (k0, v0) :: rest, h => by
    rw [lookupL_cons] at h
    by_cases hk : k0 = k
    · rw [if_pos hk] at h
      exact Option.noConfusion h
    · rw [if_neg hk] at h
      rw [mapSetL_cons, if_neg hk, mapSetL_append_of_none k v rest h]
      rfl

theorem mapSetL_decomp (k : List Char) (v : β) :
    ∀ (m : List (List Char × β)) (w : β),
      (m.map (fun p => p.1)).Nodup → lookupL m k = some w →
      ∃ m1 m2, m = m1 ++ (k, w) :: m2 ∧
        mapSetL m k v = m1 ++ (k, v) :: m2 ∧
        k ∉ m1.map (fun p => p.1) ∧ k ∉ m2.map (fun p => p.1)
  | [], w, _, h => by simp [lookupL] at h
  | (k0, v0) :: rest, w, hnd, h => by
    rw [lookupL_cons] at h
    rw [List.map_cons, List.nodup_cons] at hnd
    by_cases hk : k0 = k
    · rw [if_pos hk] at h
      have hv : v0 = w := Option.some.inj h
      subst hv
      subst hk
      refine ⟨[], rest, rfl, ?_, List.not_mem_nil k0, hnd.1⟩
      rw [mapSetL_cons, if_pos rfl]
      rfl
    · rw [if_neg hk] at h
      obtain ⟨m1, m2, he, hs, h1, h2⟩ :=
        mapSetL_decomp k v rest w hnd.2 h
      refine ⟨(k0, v0) :: m1, m2, by rw [he]; rfl, ?_, ?_, h2⟩
      · rw [mapSetL_cons, if_neg hk, hs]
        rfl
      · rw [List.map_cons, List.mem_cons]
        rintro (hc | hc)
        · exact hk hc.symm
        · exact h1 hc

theorem lookupL_ne_none_iff (k : List Char) :
    ∀ m : List (List Char × β),
      lookupL m k ≠ none ↔ ∃ p ∈ m, p.1 = k
  | [] => by
    constructor
    · intro h
      exact absurd rfl h
    · rintro ⟨p, hp, _⟩
      exact absurd hp (List.not_mem_nil p)
  | (k0, v0) :: rest => by
    rw [lookupL_cons]
    by_cases hk : k0 = k
    · rw [if_pos hk]
      constructor
      · intro _
        exact ⟨(k0, v0), List.mem_cons_self _ _, hk⟩
      · intro _ hcontra
        exact Option.noConfusion hcontra
    · rw [if_neg hk]
      rw [lookupL_ne_none_iff k rest]
      constructor
      · rintro ⟨p, hp, hpk⟩
        exact ⟨p, List.mem_cons_of_mem _ hp, hpk⟩
      · rintro ⟨p, hp, hpk⟩
        rcases List.mem_cons.mp hp with rfl | hp'
        · exact absurd hpk hk
        · exact ⟨p, hp', hpk⟩

/-- Entry e passes the JS falsiness guards and contributes a node under
key k = name@version. -/
def contributes (e : List Char × Option (List Char))
    (k : List Char) : Prop :=
  ∃ name version, getPackageNameFromPath e.1 = some name ∧ name ≠ [] ∧
    e.2 = some version ∧ version ≠ [] ∧ name ++ '@' :: version = k

/-- Loop invariant of the packages fold: keys agree with their nodes and
are pairwise distinct, a node is direct exactly when some processed entry
with its key is a direct path, and the key set is exactly the set of
contributed keys. -/
def npmInv (processed : List (List Char × Option (List Char)))
    (m : List (List Char × DepNodeL)) : Prop :=
  (∀ p ∈ m, p.1 = p.2.name ++ '@' :: p.2.version) ∧
  (m.map (fun p => p.1)).Nodup ∧
  (∀ p ∈ m, (p.2.direct = true ↔
    ∃ e ∈ processed, contributes e p.1 ∧
      isDirectPackagePath e.1 = true)) ∧
  (∀ k, (∃ e ∈ processed, contributes e k) ↔ lookupL m k ≠ none)

theorem npmInv_extend_skip (processed : List (List Char × Option (List Char)))
    (m : List (List Char × DepNodeL)) (e : List Char × Option (List Char))
    (h : npmInv processed m) (hnc : ∀ k, ¬ contributes e k) :
    npmInv (processed ++ [e]) m := by
  obtain ⟨h1, h2, h3, h4⟩ := h
  refine ⟨h1, h2, ?_, ?_⟩
  · intro p hp
    rw [h3 p hp]
    constructor
    · rintro ⟨e1, he1, hc, hd⟩
      exact ⟨e1, List.mem_append_left _ he1, hc, hd⟩
    · rintro ⟨e1, he1, hc, hd⟩
      rcases List.mem_append.mp he1 with he1 | he1
      · exact ⟨e1, he1, hc, hd⟩
      · rw [List.mem_singleton] at he1
        subst he1
        exact absurd hc (hnc _)
  · intro k
    rw [← h4 k]
    constructor
    · rintro ⟨e1, he1, hc⟩
      rcases List.mem_append.mp he1 with he1 | he1
      · exact ⟨e1, he1, hc⟩
      · rw [List.mem_singleton] at he1
        subst he1
        exact absurd hc (hnc _)
    · rintro ⟨e1, he1, hc⟩
      exact ⟨e1, List.mem_append_left _ he1, hc⟩

theorem contributes_iff_key (e : List Char × Option (List Char))
    (name version : List Char)
    (hgp : getPackageNameFromPath e.1 = some name) (hne : name ≠ [])
    (hv : e.2 = some version) (hve : version ≠ []) (k : List Char) :
    contributes e k ↔ k = name ++ '@' :: version := by
  constructor
  · rintro ⟨n, ver, hn, _, hver, _, hk⟩
    rw [hgp] at hn
    have h1 : name = n := Option.some.inj hn
    rw [hv] at hver
    have h2 : version = ver := Option.some.inj hver
    rw [← hk, ← h1, ← h2]
  · rintro rfl
    exact ⟨name, version, hgp, hne, hv, hve, rfl⟩

theorem mem_of_mem_decompL {p : List Char × β} {m1 m2 : List (List Char × β)}
    (hmem : p ∈ m1 ∨ p ∈ m2) (kv : List Char × β) :
    p ∈ m1 ++ kv :: m2 := by
  rcases hmem with h | h
  · exact List.mem_append_left _ h
  · exact List.mem_append_right _ (List.mem_cons_of_mem kv h)

theorem lookupL_unique (m : List (List Char × β)) (k : List Char) (w : β)
    (hnd : (m.map (fun p => p.1)).Nodup) (hlk : lookupL m k = some w)
    (p : List Char × β) (hp : p ∈ m) (hpk : p.1 = k) : p.2 = w := by
  obtain ⟨m1, m2, hmeq, _, hk1, hk2⟩ := mapSetL_decomp k w m w hnd hlk
  subst hmeq
  rcases List.mem_append.mp hp with hin | hin
  · refine absurd ?_ hk1
    rw [← hpk]
    exact List.mem_map_of_mem _ hin
  · rcases List.mem_cons.mp hin with rfl | hin2
    · rfl
    · refine absurd ?_ hk2
      rw [← hpk]
      exact List.mem_map_of_mem _ hin2

theorem npmInv_step (processed : List (List Char × Option (List Char)))
    (m : List (List Char × DepNodeL)) (e : List Char × Option (List Char))
    (h : npmInv processed m) :
    npmInv (processed ++ [e]) (npmEntryStep m e) := by
  obtain ⟨h1, h2, h3, h4⟩ := h
  cases hgp : getPackageNameFromPath e.1 with
  | none =>
    have hstep : npmEntryStep m e = m := by rw [npmEntryStep, hgp]
    rw [hstep]
    refine npmInv_extend_skip processed m e ⟨h1, h2, h3, h4⟩ ?_
    rintro k ⟨n, ver, hn, _, _, _, _⟩
    rw [hgp] at hn
    exact Option.noConfusion hn
  | some name =>
    have hred : npmEntryStep m e = npmEntryWithName m e name := by
      rw [npmEntryStep, hgp]
    by_cases hne : name = []
    · have hstep : npmEntryStep m e = m := by
        rw [hred, npmEntryWithName, if_pos hne]
      rw [hstep]
      refine npmInv_extend_skip processed m e ⟨h1, h2, h3, h4⟩ ?_
      rintro k ⟨n, ver, hn, hn2, _, _, _⟩
      rw [hgp] at hn
      rw [← Option.some.inj hn] at hn2
      exact hn2 hne
    rw [hred, npmEntryWithName, if_neg hne]
    cases hv : e.2 with
    | none =>
      refine npmInv_extend_skip processed m e ⟨h1, h2, h3, h4⟩ ?_
      rintro k ⟨n, ver, _, _, hver, _, _⟩
      rw [hv] at hver
      exact Option.noConfusion hver
    | some version =>
      show npmInv (processed ++ [e])
        (if version = [] then m else npmEntryInsert m e name version)
      by_cases hve : version = []
      · rw [if_pos hve]
        refine npmInv_extend_skip processed m e ⟨h1, h2, h3, h4⟩ ?_
        rintro k ⟨n, ver, _, _, hver, hver2, _⟩
        rw [hv] at hver
        rw [← Option.some.inj hver] at hver2
        exact hver2 hve
      rw [if_neg hve, npmEntryInsert]
      have hck := contributes_iff_key e name version hgp hne hv hve
      cases hlk : lookupL m (name ++ '@' :: version) with
      | none =>
        show npmInv (processed ++ [e])
          (mapSetL m (name ++ '@' :: version)
            ⟨name, version, isDirectPackagePath e.1⟩)
        rw [mapSetL_append_of_none _ _ m hlk]
        have hknotin : (name ++ '@' :: version) ∉
            m.map (fun p => p.1) := by
          intro hmem
          obtain ⟨p, hp, hpk⟩ := List.mem_map.mp hmem
          exact ((lookupL_ne_none_iff _ m).mpr ⟨p, hp, hpk⟩) hlk
        refine ⟨?_, ?_, ?_, ?_⟩
        · intro p hp
          rcases List.mem_append.mp hp with hp1 | hp1
          · exact h1 p hp1
          · rw [List.mem_singleton] at hp1
            subst hp1
            rfl
        · rw [List.map_append]
          refine List.Nodup.append h2 (by simp) ?_
          intro a ha hb
          rw [show List.map (fun p => p.1)
              [((name ++ '@' :: version : List Char),
                (⟨name, version, isDirectPackagePath e.1⟩ : DepNodeL))] =
              [name ++ '@' :: version] from rfl, List.mem_singleton] at hb
          subst hb
          exact hknotin ha
        · intro p hp
          rcases List.mem_append.mp hp with hp1 | hp1
          · rw [h3 p hp1]
            constructor
            · rintro ⟨e1, he1, hc, hd⟩
              exact ⟨e1, List.mem_append_left _ he1, hc, hd⟩
            · rintro ⟨e1, he1, hc, hd⟩
              rcases List.mem_append.mp he1 with he1 | he1
              · exact ⟨e1, he1, hc, hd⟩
              · rw [List.mem_singleton] at he1
                subst he1
                rw [hck p.1] at hc
                refine absurd ?_ hknotin
                rw [← hc]
                exact List.mem_map_of_mem _ hp1
          · rw [List.mem_singleton] at hp1
            subst hp1
            constructor
            · intro hd
              exact ⟨e, List.mem_append_right _ (List.mem_singleton.mpr rfl),
                (hck _).mpr rfl, hd⟩
            · rintro ⟨e1, he1, hc, hd⟩
              rcases List.mem_append.mp he1 with he1 | he1
              · have : lookupL m (name ++ '@' :: version) ≠ none :=
                  (h4 _).mp ⟨e1, he1, hc⟩
                exact absurd hlk this
              · rw [List.mem_singleton] at he1
                subst he1
                exact hd
        · intro k
          rw [lookupL_ne_none_iff]
          constructor
          · rintro ⟨e1, he1, hc⟩
            rcases List.mem_append.mp he1 with he1 | he1
            · obtain ⟨p, hp, hpk⟩ :=
                (lookupL_ne_none_iff k m).mp ((h4 k).mp ⟨e1, he1, hc⟩)
              exact ⟨p, List.mem_append_left _ hp, hpk⟩
            · rw [List.mem_singleton] at he1
              subst he1
              rw [hck k] at hc
              subst hc
              exact ⟨_, List.mem_append_right _ (List.mem_singleton.mpr rfl),
                rfl⟩
          · rintro ⟨p, hp, hpk⟩
            rcases List.mem_append.mp hp with hp1 | hp1
            · obtain ⟨e1, he1, hc⟩ :=
                (h4 k).mpr ((lookupL_ne_none_iff k m).mpr ⟨p, hp1, hpk⟩)
              exact ⟨e1, List.mem_append_left _ he1, hc⟩
            · rw [List.mem_singleton] at hp1
              subst hp1
              exact ⟨e, List.mem_append_right _ (List.mem_singleton.mpr rfl),
                (hck k).mpr hpk.symm⟩
      | some existing =>
        show npmInv (processed ++ [e])
          (if isDirectPackagePath e.1 && !existing.direct then
            mapSetL m (name ++ '@' :: version)
              ⟨existing.name, existing.version, true⟩
          else m)
        by_cases hd : (isDirectPackagePath e.1 && !existing.direct) = true
        · rw [if_pos hd]
          obtain ⟨m1, m2, hmeq, hseq, hk1, hk2⟩ :=
            mapSetL_decomp (name ++ '@' :: version)
              (⟨existing.name, existing.version, true⟩ : DepNodeL)
              m existing h2 hlk
          rw [hseq]
          have hmidmem : ((name ++ '@' :: version : List Char), existing) ∈
              m := by
            rw [hmeq]
            exact List.mem_append_right _ (List.mem_cons_self _ _)
          have hkeycons : (name ++ '@' :: version : List Char) =
              existing.name ++ '@' :: existing.version :=
            h1 _ hmidmem
          have hkeysame : (m1 ++
              ((name ++ '@' :: version : List Char),
                (⟨existing.name, existing.version, true⟩ : DepNodeL)) ::
              m2).map (fun p => p.1) = m.map (fun p => p.1) := by
            rw [hmeq, List.map_append, List.map_append, List.map_cons,
              List.map_cons]
          refine ⟨?_, ?_, ?_, ?_⟩
          · intro p hp
            rcases List.mem_append.mp hp with hp1 | hp1
            · exact h1 p (by rw [hmeq]; exact List.mem_append_left _ hp1)
            · rcases List.mem_cons.mp hp1 with rfl | hp2
              · exact hkeycons
              · exact h1 p (by
                  rw [hmeq]
                  exact List.mem_append_right _ (List.mem_cons_of_mem _ hp2))
          · rw [hkeysame]
            exact h2
          · intro p hp
            have hinm : p ∈ m1 ∨ p ∈ m2 → p.1 ≠ name ++ '@' :: version := by
              rintro (hp1 | hp1) hpk
              · exact hk1 (by rw [← hpk]; exact List.mem_map_of_mem _ hp1)
              · exact hk2 (by rw [← hpk]; exact List.mem_map_of_mem _ hp1)
            rcases List.mem_append.mp hp with hp1 | hp1
            · have hpm : p ∈ m := by
                rw [hmeq]
                exact List.mem_append_left _ hp1
              rw [h3 p hpm]
              constructor
              · rintro ⟨e1, he1, hc, hdd⟩
                exact ⟨e1, List.mem_append_left _ he1, hc, hdd⟩
              · rintro ⟨e1, he1, hc, hdd⟩
                rcases List.mem_append.mp he1 with he1 | he1
                · exact ⟨e1, he1, hc, hdd⟩
                · rw [List.mem_singleton] at he1
                  subst he1
                  rw [hck p.1] at hc
                  exact absurd hc (hinm (Or.inl hp1))
            · rcases List.mem_cons.mp hp1 with rfl | hp2
              · constructor
                · intro _
                  exact ⟨e,
                    List.mem_append_right _ (List.mem_singleton.mpr rfl),
                    (hck _).mpr rfl, (Bool.and_eq_true_iff.mp hd).1⟩
                · intro _
                  rfl
              · have hpm : p ∈ m := by
                  rw [hmeq]
                  exact List.mem_append_right _ (List.mem_cons_of_mem _ hp2)
                rw [h3 p hpm]
                constructor
                · rintro ⟨e1, he1, hc, hdd⟩
                  exact ⟨e1, List.mem_append_left _ he1, hc, hdd⟩
                · rintro ⟨e1, he1, hc, hdd⟩
                  rcases List.mem_append.mp he1 with he1 | he1
                  · exact ⟨e1, he1, hc, hdd⟩
                  · rw [List.mem_singleton] at he1
                    subst he1
                    rw [hck p.1] at hc
                    exact absurd hc (hinm (Or.inr hp2))
          · intro k
            rw [lookupL_ne_none_iff]
            have hmk : (∃ p ∈ m, p.1 = k) ↔
                ∃ p ∈ m1 ++
                  ((name ++ '@' :: version : List Char),
                    (⟨existing.name, existing.version, true⟩ : DepNodeL)) ::
                  m2, p.1 = k := by
              constructor
              · rintro ⟨p, hp, hpk⟩
                rw [hmeq] at hp
                rcases List.mem_append.mp hp with hp1 | hp1
                · exact ⟨p, List.mem_append_left _ hp1, hpk⟩
                · rcases List.mem_cons.mp hp1 with rfl | hp2
                  · exact ⟨_, List.mem_append_right _
                      (List.mem_cons_self _ _), hpk⟩
                  · exact ⟨p, List.mem_append_right _
                      (List.mem_cons_of_mem _ hp2), hpk⟩
              · rintro ⟨p, hp, hpk⟩
                rcases List.mem_append.mp hp with hp1 | hp1
                · exact ⟨p, by rw [hmeq]; exact List.mem_append_left _ hp1,
                    hpk⟩
                · rcases List.mem_cons.mp hp1 with rfl | hp2
                  · exact ⟨_, hmidmem, hpk⟩
                  · refine ⟨p, ?_, hpk⟩
                    rw [hmeq]
                    exact List.mem_append_right _
                      (List.mem_cons_of_mem _ hp2)
            rw [← hmk, ← lookupL_ne_none_iff, ← h4 k]
            constructor
            · rintro ⟨e1, he1, hc⟩
              rcases List.mem_append.mp he1 with he1 | he1
              · exact ⟨e1, he1, hc⟩
              · rw [List.mem_singleton] at he1
                subst he1
                rw [hck k] at hc
                subst hc
                refine (h4 _).mpr ?_
                rw [hlk]
                exact fun hcc => Option.noConfusion hcc
            · rintro ⟨e1, he1, hc⟩
              exact ⟨e1, List.mem_append_left _ he1, hc⟩
        · rw [if_neg hd]
          have hcases : isDirectPackagePath e.1 = false ∨
              existing.direct = true := by
            rcases Bool.and_eq_false_iff.mp (Bool.eq_false_iff.mpr hd)
              with hc | hc
            · exact Or.inl hc
            · right
              cases hb : existing.direct
              · rw [hb] at hc
                simp at hc
              · rfl
          refine ⟨h1, h2, ?_, ?_⟩
          · intro p hp
            rw [h3 p hp]
            constructor
            · rintro ⟨e1, he1, hc, hdd⟩
              exact ⟨e1, List.mem_append_left _ he1, hc, hdd⟩
            · rintro ⟨e1, he1, hc, hdd⟩
              rcases List.mem_append.mp he1 with he1 | he1
              · exact ⟨e1, he1, hc, hdd⟩
              · rw [List.mem_singleton] at he1
                subst he1
                rw [hck p.1] at hc
                have hpe : p.2 = existing :=
                  lookupL_unique m _ existing h2 hlk p hp hc
                rcases hcases with hc1 | hc1
                · rw [hc1] at hdd
                  exact absurd hdd (by simp)
                · exact (h3 p hp).mp (by rw [hpe]; exact hc1)
          · intro k
            constructor
            · rintro ⟨e1, he1, hc⟩
              rcases List.mem_append.mp he1 with he1 | he1
              · exact (h4 k).mp ⟨e1, he1, hc⟩
              · rw [List.mem_singleton] at he1
                subst he1
                rw [hck k] at hc
                subst hc
                rw [hlk]
                exact fun hcc => Option.noConfusion hcc
            · intro hl
              obtain ⟨e1, he1, hc⟩ := (h4 k).mpr hl
              exact ⟨e1, List.mem_append_left _ he1, hc⟩

theorem npmInv_nil : npmInv [] [] := by
  refine ⟨?_, ?_, ?_, ?_⟩
  · intro p hp
    exact absurd hp (List.not_mem_nil p)
  · simp
  · intro p hp
    exact absurd hp (List.not_mem_nil p)
  · intro k
    constructor
    · rintro ⟨e, he, _⟩
      exact absurd he (List.not_mem_nil e)
    · intro hl
      exact absurd rfl hl

theorem npmInv_foldl :
    ∀ (entries processed : List (List Char × Option (List Char)))
      (m : List (List Char × DepNodeL)),
      npmInv processed m →
      npmInv (processed ++ entries) (entries.foldl npmEntryStep m)
  | [], processed, m, h => by simpa using h
  | e :: rest, processed, m, h => by
    rw [List.foldl_cons]
    have hr := npmInv_foldl rest (processed ++ [e]) (npmEntryStep m e)
      (npmInv_step processed m e h)
    simpa [List.append_assoc] using hr

/-- C6 amended: for every npm package-lock v2+ packages object, the pass
extracts each name from the substring after the LAST occurrence of
node_modules/ (two path segments when the candidate is scoped, else one);
it classifies an entry as direct exactly when the path after the leading
node_modules/ prefix has one segment (two when scoped) — which coincides
with the claim's rule, key = node_modules/<name>, whenever the leading
occurrence of node_modules/ in the key is also its last; and occurrences
sharing a name@version key merge into exactly one DependencyNode (keys in
the output are pairwise distinct, every contributing entry is
represented) whose direct flag is true exactly when some occurrence of
the key is a direct path. -/
theorem C6_npm_packages_pass
    (entries : List (List Char × Option (List Char))) :
    (∀ key name, getPackageNameFromPath key = some name →
      ∃ pre suf, key = pre ++ nmSlash ++ suf ∧
        containsSeq nmSlash suf = false ∧ suf ≠ [] ∧
        specSegName suf = some name) ∧
    (∀ key name, getPackageNameFromPath key = some name →
      lastOccSuffix nmSlash key = some (List.drop nmSlash.length key) →
      (isDirectPackagePath key = true ↔ key = nmSlash ++ name)) ∧
    ((npmPackagesPass entries).map
      (fun n => n.name ++ '@' :: n.version)).Nodup ∧
    (∀ n ∈ npmPackagesPass entries, (n.direct = true ↔
      ∃ e ∈ entries, contributes e (n.name ++ '@' :: n.version) ∧
        isDirectPackagePath e.1 = true)) ∧
    (∀ e ∈ entries, ∀ k, contributes e k →
      ∃ n ∈ npmPackagesPass entries, n.name ++ '@' :: n.version = k) := by
  have hinv : npmInv entries (entries.foldl npmEntryStep []) := by
    have h := npmInv_foldl entries [] [] npmInv_nil
    simpa using h
  obtain ⟨h1, h2, h3, h4⟩ := hinv
  refine ⟨gp_extraction, isDirect_iff_key_eq, ?_, ?_, ?_⟩
  · show (((entries.foldl npmEntryStep []).map (fun p => p.2)).map
      (fun n => n.name ++ '@' :: n.version)).Nodup
    rw [List.map_map]
    have hmeq : (entries.foldl npmEntryStep []).map
        ((fun n : DepNodeL => n.name ++ '@' :: n.version) ∘
          (fun p => p.2)) =
        (entries.foldl npmEntryStep []).map (fun p => p.1) :=
      List.map_eq_map_iff.mpr (fun p hp => (h1 p hp).symm)
    rw [hmeq]
    exact h2
  · intro n hn
    obtain ⟨p, hp, hpe⟩ := List.mem_map.mp hn
    have hiff := h3 p hp
    rw [h1 p hp, hpe] at hiff
    exact hiff
  · intro e he k hc
    have hl := (h4 k).mp ⟨e, he, hc⟩
    obtain ⟨p, hp, hpk⟩ := (lookupL_ne_none_iff k _).mp hl
    refine ⟨p.2, List.mem_map_of_mem _ hp, ?_⟩
    rw [← h1 p hp, hpk]

/-- Witness for C6: the direct-classification equivalence evaluated at
the plain entry node_modules/lodash, whose only node_modules/ occurrence
is the leading prefix. -/
theorem C6_npm_packages_pass_witness :
    (isDirectPackagePath "node_modules/lodash".data = true ↔
      "node_modules/lodash".data = nmSlash ++ "lodash".data) ∧
    isDirectPackagePath "node_modules/lodash".data = true := by
  have h := C6_npm_packages_pass []
  exact ⟨h.2.1 "node_modules/lodash".data "lodash".data (by decide)
    (by decide), by decide⟩

/-! ## Evidence collection (claim C8)

Embedding of the current evidence indexer (src/unnamed/part_010, the
revision consistent with the package's tests and README; the older
revision at packages/core/src/evidence.ts globbed only ts/tsx/vue and
did not exclude .next). File selection embeds the fast-glob semantics of
EVIDENCE_PATTERNS = **/*.{ts,tsx,js,jsx,mjs,cjs,vue} with ignore
**/node_modules/**, **/dist/**, **/.next/** (part_010 lines 5, 15-19), as
a predicate on the directory segments and the extension of a relative
path. Specifier normalization embeds normalizePackageName (part_010
lines 54-61). -/

/-- A file is collected iff its extension is one of the seven evidence
extensions and no directory segment at any depth is node_modules, dist
or .next. -/
def evidenceFileSelected (dirs : List (List Char)) (ext : List Char) :
    Bool :=
  (decide (ext = "ts".data) || decide (ext = "tsx".data) ||
    decide (ext = "js".data) || decide (ext = "jsx".data) ||
    decide (ext = "mjs".data) || decide (ext = "cjs".data) ||
    decide (ext = "vue".data)) &&
  dirs.all (fun d =>
    !(decide (d = "node_modules".data) || decide (d = "dist".data) ||
      decide (d = ".next".data)))

/-- Embeds normalizePackageName from part_010 lines 54-61: drop relative
and absolute specifiers; scoped specifiers keep their first two
'/'-separated segments when both are truthy (nonempty), else null;
all others keep their first segment. -/
def normalizePackageName (specifier : List Char) : Option (List Char) :=
  if startsWithL specifier ['.'] || startsWithL specifier ['/'] then none
  else if startsWithL specifier ['@'] then
    match splitOnChar '/' specifier with
    | scope :: nm :: _ =>
      if scope ≠ [] ∧ nm ≠ [] then some (scope ++ '/' :: nm) else none
    | _ => none
  else
    match splitOnChar '/' specifier with
    | p0 :: _ => some p0
    | [] => none

/-- C8 counterexample: the specifier written as import x from a quoted
at-a-slash string (scope @a with an empty second segment). It starts with
neither dot nor slash, its first two '/'-separated segments are @a and
the empty segment, so the claim maps it to their join; but the code's JS
truthiness guard on the second segment drops it to null instead. -/
theorem C8_counterexample :
    normalizePackageName "@a/".data = none ∧
    startsWithL "@a/".data ['@'] = true ∧
    startsWithL "@a/".data ['.'] = false ∧
    startsWithL "@a/".data ['/'] = false ∧
    splitOnChar '/' "@a/".data = ["@a".data, []] ∧
    normalizePackageName "@a/".data ≠ some ("@a".data ++ '/' :: []) := by
  refine ⟨by decide, by decide, by decide, by decide, by decide, by decide⟩

/-- C8 amended: the indexer collects exactly the files with extensions
ts, tsx, js, jsx, mjs, cjs and vue whose paths contain no node_modules,
dist or .next segment at any depth; specifier normalization drops
specifiers starting with . or /, maps a specifier starting with @ to its
first two '/'-separated segments provided both are nonempty and drops it
otherwise (the JS truthiness guard the counterexample exposes), and maps
every other specifier to its first path segment. -/
theorem C8_evidence_normalization (specifier : List Char)
    (dirs : List (List Char)) (ext : List Char) :
    (evidenceFileSelected dirs ext = true ↔
      (ext ∈ ["ts".data, "tsx".data, "js".data, "jsx".data, "mjs".data,
        "cjs".data, "vue".data] ∧
        ∀ d ∈ dirs, d ≠ "node_modules".data ∧ d ≠ "dist".data ∧
          d ≠ ".next".data)) ∧
    ((startsWithL specifier ['.'] = true ∨
        startsWithL specifier ['/'] = true) →
      normalizePackageName specifier = none) ∧
    (∀ scope nm rest, startsWithL specifier ['@'] = true →
      splitOnChar '/' specifier = scope :: nm :: rest →
      nm ≠ [] →
      normalizePackageName specifier = some (scope ++ '/' :: nm)) ∧
    (∀ scope nm rest, startsWithL specifier ['@'] = true →
      splitOnChar '/' specifier = scope :: nm :: rest →
      nm = [] →
      normalizePackageName specifier = none) ∧
    (∀ p0 rest, startsWithL specifier ['.'] = false →
      startsWithL specifier ['/'] = false →
      startsWithL specifier ['@'] = false →
      splitOnChar '/' specifier = p0 :: rest →
      normalizePackageName specifier = some p0) := by
  have hat_dot : startsWithL specifier ['@'] = true →
      (startsWithL specifier ['.'] || startsWithL specifier ['/']) =
        false := by
    intro hat
    cases specifier with
    | nil => simp [startsWithL] at hat
    | cons c rest =>
      rw [startsWithL] at hat
      by_cases hc : '@' = c
      · subst hc
        rfl
      · rw [if_neg hc] at hat
        simp at hat
  have hscope_ne : startsWithL specifier ['@'] = true →
      ∀ scope nm rest, splitOnChar '/' specifier = scope :: nm :: rest →
      scope ≠ [] := by
    intro hat scope nm rest hsp
    cases specifier with
    | nil => simp [startsWithL] at hat
    | cons c tail =>
      rw [startsWithL] at hat
      by_cases hc : '@' = c
      · subst hc
        rw [splitOnChar_cons] at hsp
        rw [if_neg (by decide)] at hsp
        cases hr : splitOnChar '/' tail with
        | nil => exact absurd hr (splitOnChar_ne_nil '/' tail)
        | cons hh tt =>
          rw [hr] at hsp
          have := (List.cons.injEq _ _ _ _).mp hsp
          rw [← this.1]
          simp
      · rw [if_neg hc] at hat
        simp at hat
  refine ⟨?_, ?_, ?_, ?_, ?_⟩
  · rw [evidenceFileSelected, Bool.and_eq_true]
    constructor
    · rintro ⟨hext, hall⟩
      constructor
      · simp only [Bool.or_eq_true, decide_eq_true_eq] at hext
        simp only [List.mem_cons, List.not_mem_nil, or_false]
        tauto
      · intro d hd
        have := (List.all_eq_true.mp hall) d hd
        simp only [Bool.not_eq_true', Bool.or_eq_false_iff,
          decide_eq_false_iff_not] at this
        exact ⟨this.1.1, this.1.2, this.2⟩
    · rintro ⟨hext, hall⟩
      constructor
      · simp only [List.mem_cons, List.not_mem_nil, or_false] at hext
        simp only [Bool.or_eq_true, decide_eq_true_eq]
        tauto
      · rw [List.all_eq_true]
        intro d hd
        obtain ⟨hd1, hd2, hd3⟩ := hall d hd
        simp [hd1, hd2, hd3]
  · intro hds
    rw [normalizePackageName]
    rw [if_pos (by rcases hds with h | h <;> simp [h])]
  · intro scope nm rest hat hsp hnm
    rw [normalizePackageName, if_neg (by rw [hat_dot hat]; simp),
      if_pos hat, hsp]
    show (if scope ≠ [] ∧ nm ≠ [] then some (scope ++ '/' :: nm)
      else none) = some (scope ++ '/' :: nm)
    rw [if_pos ⟨hscope_ne hat scope nm rest hsp, hnm⟩]
  · intro scope nm rest hat hsp hnm
    rw [normalizePackageName, if_neg (by rw [hat_dot hat]; simp),
      if_pos hat, hsp]
    show (if scope ≠ [] ∧ nm ≠ [] then some (scope ++ '/' :: nm)
      else none) = none
    rw [if_neg (by rintro ⟨_, h2⟩; exact h2 hnm)]
  · intro p0 rest hd hs hat hsp
    rw [normalizePackageName, if_neg (by rw [hd, hs]; simp),
      if_neg (by rw [hat]; simp), hsp]

/-- Witness for C8: a deep scoped specifier maps to scope and package
segments, and a dotted specifier is dropped. -/
theorem C8_evidence_normalization_witness :
    normalizePackageName "@scope/pkg/lib/util".data =
      some ("@scope".data ++ '/' :: "pkg".data) ∧
    normalizePackageName "./local".data = none ∧
    evidenceFileSelected ["src".data] "tsx".data = true := by
  have h := C8_evidence_normalization "@scope/pkg/lib/util".data
    ["src".data] "tsx".data
  have h2 := C8_evidence_normalization "./local".data ["src".data]
    "tsx".data
  refine ⟨h.2.2.1 "@scope".data "pkg".data ["lib".data, "util".data]
      (by decide) (by decide) (by decide),
    h2.2.1 (Or.inl (by decide)), by decide⟩

/-! ## Bounded-concurrency mapping (claim C9)

Embedding of mapWithConcurrency (src/unnamed/part_014 lines 528-545) as a
small-step transition system over the cooperative JS event loop. The
shared counter next and the output array are the state; each of the
spawned worker coroutines is idle (at its while-loop head), busy awaiting
worker(items[index]) for a claimed index, or done (its loop exited).
Claiming an index — reading next and incrementing it (lines 537-538) — is
one atomic step because no await separates the read from the increment;
completions (line 539) interleave arbitrarily under the scheduler, which
picks any coroutine at every step. The async worker is abstracted by the
pure function f giving its eventual result on each item. -/

/-- The scheduling state of one worker coroutine. -/
inductive WStatus where
  | idle
  | busy (i : Nat)
  | done
deriving DecidableEq, Repr

/-- The shared state: the next counter, the out array (none = unwritten),
and the coroutine statuses. -/
structure PoolState (R : Type) where
  nexti : Nat
  out : List (Option R)
  ws : List WStatus
deriving DecidableEq, Repr

/-- Math.max(1, Math.min(concurrency, items.length)), the spawned worker
count (part_014 line 542). -/
def workerCount (concurrency len : Nat) : Nat :=
  max 1 (min concurrency len)

/-- The state before any coroutine runs: next = 0, out = new
Array(items.length) (all unwritten), k idle workers. -/
def initPool (R : Type) (k len : Nat) : PoolState R :=
  ⟨0, List.replicate len none, List.replicate k WStatus.idle⟩

/-- One scheduler step of mapWithConcurrency: an idle worker claims the
next index and starts its awaited call, a busy worker resumes and writes
its slot, or an idle worker observes next >= items.length and exits. -/
inductive PoolStep (items : List T) (f : T → R) :
    PoolState R → PoolState R → Prop where
  | claim (s : PoolState R) (w : Nat)
      (hw : s.ws.get? w = some WStatus.idle)
      (hn : s.nexti < items.length) :
      PoolStep items f s
        ⟨s.nexti + 1, s.out, s.ws.set w (WStatus.busy s.nexti)⟩
  | finish (s : PoolState R) (w i : Nat)
      (hw : s.ws.get? w = some (WStatus.busy i)) :
      PoolStep items f s
        ⟨s.nexti, s.out.set i ((items.get? i).map f),
          s.ws.set w WStatus.idle⟩
  | retire (s : PoolState R) (w : Nat)
      (hw : s.ws.get? w = some WStatus.idle)
      (hn : ¬ s.nexti < items.length) :
      PoolStep items f s ⟨s.nexti, s.out, s.ws.set w WStatus.done⟩

/-- Promise.all has resolved: every coroutine exited its loop. -/
def PoolDone (s : PoolState R) : Prop := ∀ st ∈ s.ws, st = WStatus.done

/-- The run invariant of the pool. -/
def PoolInv (items : List T) (f : T → R) (k : Nat) (s : PoolState R) :
    Prop :=
  s.ws.length = k ∧
  s.out.length = items.length ∧
  s.nexti ≤ items.length ∧
  (∀ w i, s.ws.get? w = some (WStatus.busy i) → i < s.nexti) ∧
  (∀ w1 w2 i, s.ws.get? w1 = some (WStatus.busy i) →
    s.ws.get? w2 = some (WStatus.busy i) → w1 = w2) ∧
  (∀ i, i < s.nexti → (∀ w, s.ws.get? w ≠ some (WStatus.busy i)) →
    s.out.get? i = some ((items.get? i).map f)) ∧
  (∀ i, s.nexti ≤ i → i < items.length → s.out.get? i = some none) ∧
  ((∃ w, s.ws.get? w = some WStatus.done) → items.length ≤ s.nexti)

theorem lt_length_of_get?_eq_some {l : List α} {n : Nat} {a : α}
    (h : l.get? n = some a) : n < l.length := by
  by_contra hn
  rw [List.get?_eq_none.mpr (le_of_not_lt hn)] at h
  exact Option.noConfusion h

theorem poolInv_init (items : List T) (f : T → R) (k : Nat) :
    PoolInv items f k (initPool R k items.length) := by
  refine ⟨List.length_replicate k _, List.length_replicate _ _,
    Nat.zero_le _, ?_, ?_, ?_, ?_, ?_⟩
  · intro w i hw
    by_cases hlt : w < k
    · rw [show (initPool R k items.length).ws.get? w =
          some WStatus.idle from by
        rw [initPool, List.get?_eq_getElem?, List.getElem?_replicate,
          if_pos hlt]] at hw
      exact absurd (Option.some.inj hw) (by simp)
    · rw [show (initPool R k items.length).ws.get? w = none from by
        rw [initPool, List.get?_eq_getElem?, List.getElem?_replicate,
          if_neg hlt]] at hw
      exact Option.noConfusion hw
  · intro w1 w2 i hw1 _
    by_cases hlt : w1 < k
    · rw [show (initPool R k items.length).ws.get? w1 =
          some WStatus.idle from by
        rw [initPool, List.get?_eq_getElem?, List.getElem?_replicate,
          if_pos hlt]] at hw1
      exact absurd (Option.some.inj hw1) (by simp)
    · rw [show (initPool R k items.length).ws.get? w1 = none from by
        rw [initPool, List.get?_eq_getElem?, List.getElem?_replicate,
          if_neg hlt]] at hw1
      exact Option.noConfusion hw1
  · intro i hi _
    exact absurd hi (Nat.not_lt_zero i)
  · intro i _ hi
    rw [initPool, List.get?_eq_getElem?, List.getElem?_replicate,
      if_pos hi]
  · rintro ⟨w, hw⟩
    by_cases hlt : w < k
    · rw [show (initPool R k items.length).ws.get? w =
          some WStatus.idle from by
        rw [initPool, List.get?_eq_getElem?, List.getElem?_replicate,
          if_pos hlt]] at hw
      exact absurd (Option.some.inj hw) (by simp)
    · rw [show (initPool R k items.length).ws.get? w = none from by
        rw [initPool, List.get?_eq_getElem?, List.getElem?_replicate,
          if_neg hlt]] at hw
      exact Option.noConfusion hw

theorem get?_set_cases (l : List α) (w w' : Nat) (v : α) :
    (l.set w v).get? w' = l.get? w' ∨
      ((l.set w v).get? w' = some v ∧ w' = w) := by
  by_cases h : w' = w
  · subst h
    by_cases hlt : w' < l.length
    · exact Or.inr ⟨List.get?_set_eq_of_lt v hlt, rfl⟩
    · left
      rw [List.get?_eq_none.mpr
          (by rw [List.length_set]; exact le_of_not_lt hlt),
        List.get?_eq_none.mpr (le_of_not_lt hlt)]
  · exact Or.inl (List.get?_set_ne v l (Ne.symm h))

theorem poolInv_step (items : List T) (f : T → R) (k : Nat)
    {s t : PoolState R} (hinv : PoolInv items f k s)
    (hstep : PoolStep items f s t) : PoolInv items f k t := by
  obtain ⟨I1, I2, I3, I4, I5, I6, I7, I8⟩ := hinv
  cases hstep with
  | claim w hw hn =>
    have hwlen : w < s.ws.length := lt_length_of_get?_eq_some hw
    refine ⟨by rw [List.length_set]; exact I1, I2, hn, ?_, ?_, ?_, ?_, ?_⟩
    · intro w' i hw'
      rcases get?_set_cases s.ws w w' (WStatus.busy s.nexti)
        with hc | ⟨hc, rfl⟩
      · rw [hc] at hw'
        exact lt_trans (I4 w' i hw') (Nat.lt_succ_self _)
      · rw [hc] at hw'
        have h2 := Option.some.inj hw'
        injection h2 with h3
        rw [← h3]
        exact Nat.lt_succ_self _
    · intro w1 w2 i hw1 hw2
      rcases get?_set_cases s.ws w w1 (WStatus.busy s.nexti)
        with hc1 | ⟨hc1, he1⟩
      · rcases get?_set_cases s.ws w w2 (WStatus.busy s.nexti)
          with hc2 | ⟨hc2, he2⟩
        · rw [hc1] at hw1
          rw [hc2] at hw2
          exact I5 w1 w2 i hw1 hw2
        · rw [hc1] at hw1
          rw [hc2] at hw2
          have h2 := Option.some.inj hw2
          injection h2 with h3
          rw [← h3] at hw1
          exact absurd (I4 w1 _ hw1) (lt_irrefl _)
      · rcases get?_set_cases s.ws w w2 (WStatus.busy s.nexti)
          with hc2 | ⟨hc2, he2⟩
        · rw [hc1] at hw1
          rw [hc2] at hw2
          have h2 := Option.some.inj hw1
          injection h2 with h3
          rw [← h3] at hw2
          exact absurd (I4 w2 _ hw2) (lt_irrefl _)
        · rw [he1, he2]
    · intro i hi hnb
      by_cases hie : i = s.nexti
      · subst hie
        exact absurd (List.get?_set_eq_of_lt (WStatus.busy s.nexti) hwlen)
          (hnb w)
      · have hi' : i < s.nexti :=
          lt_of_le_of_ne (Nat.lt_succ_iff.mp hi) hie
        refine I6 i hi' ?_
        intro w' hw'
        by_cases hww : w' = w
        · subst hww
          rw [hw] at hw'
          simp at hw'
        · refine hnb w' ?_
          rw [List.get?_set_ne _ _ (Ne.symm hww)]
          exact hw'
    · intro i h1 h2
      exact I7 i (le_trans (Nat.le_succ _) h1) h2
    · rintro ⟨w', hw'⟩
      rcases get?_set_cases s.ws w w' (WStatus.busy s.nexti)
        with hc | ⟨hc, rfl⟩
      · rw [hc] at hw'
        exact le_trans (I8 ⟨w', hw'⟩) (Nat.le_succ _)
      · rw [hc] at hw'
        have := Option.some.inj hw'
        exact WStatus.noConfusion this
  | finish w i hw =>
    have hiw : i < s.nexti := I4 w i hw
    have hilen : i < items.length := lt_of_lt_of_le hiw I3
    have hiout : i < s.out.length := by rw [I2]; exact hilen
    refine ⟨by rw [List.length_set]; exact I1,
      by rw [List.length_set]; exact I2, I3, ?_, ?_, ?_, ?_, ?_⟩
    · intro w' j hw'
      rcases get?_set_cases s.ws w w' WStatus.idle with hc | ⟨hc, rfl⟩
      · rw [hc] at hw'
        exact I4 w' j hw'
      · rw [hc] at hw'
        have := Option.some.inj hw'
        exact WStatus.noConfusion this
    · intro w1 w2 j hw1 hw2
      rcases get?_set_cases s.ws w w1 WStatus.idle with hc1 | ⟨hc1, rfl⟩
      · rcases get?_set_cases s.ws w w2 WStatus.idle with hc2 | ⟨hc2, heq⟩
        · rw [hc1] at hw1
          rw [hc2] at hw2
          exact I5 w1 w2 j hw1 hw2
        · rw [hc2] at hw2
          simp at hw2
      · rw [hc1] at hw1
        simp at hw1
    · intro i' hi' hnb
      by_cases hie : i' = i
      · subst hie
        exact List.get?_set_eq_of_lt _ hiout
      · rw [List.get?_set_ne _ _ (Ne.symm hie)]
        refine I6 i' hi' ?_
        intro w' hw'
        by_cases hww : w' = w
        · subst hww
          rw [hw] at hw'
          have h2 := Option.some.inj hw'
          injection h2 with h3
          exact hie h3.symm
        · refine hnb w' ?_
          rw [List.get?_set_ne _ _ (Ne.symm hww)]
          exact hw'
    · intro i' h1 h2
      have hne : i' ≠ i := by
        intro he
        rw [← he] at hiw
        exact absurd hiw (not_lt_of_le h1)
      rw [List.get?_set_ne _ _ (Ne.symm hne)]
      exact I7 i' h1 h2
    · rintro ⟨w', hw'⟩
      rcases get?_set_cases s.ws w w' WStatus.idle with hc | ⟨hc, rfl⟩
      · rw [hc] at hw'
        exact I8 ⟨w', hw'⟩
      · rw [hc] at hw'
        simp at hw'
  | retire w hw hn =>
    refine ⟨by rw [List.length_set]; exact I1, I2, I3, ?_, ?_, ?_, I7, ?_⟩
    · intro w' j hw'
      rcases get?_set_cases s.ws w w' WStatus.done with hc | ⟨hc, rfl⟩
      · rw [hc] at hw'
        exact I4 w' j hw'
      · rw [hc] at hw'
        have := Option.some.inj hw'
        exact WStatus.noConfusion this
    · intro w1 w2 j hw1 hw2
      rcases get?_set_cases s.ws w w1 WStatus.done with hc1 | ⟨hc1, rfl⟩
      · rcases get?_set_cases s.ws w w2 WStatus.done with hc2 | ⟨hc2, heq⟩
        · rw [hc1] at hw1
          rw [hc2] at hw2
          exact I5 w1 w2 j hw1 hw2
        · rw [hc2] at hw2
          simp at hw2
      · rw [hc1] at hw1
        simp at hw1
    · intro i hi hnb
      refine I6 i hi ?_
      intro w' hw'
      by_cases hww : w' = w
      · subst hww
        rw [hw] at hw'
        simp at hw'
      · refine hnb w' ?_
        rw [List.get?_set_ne _ _ (Ne.symm hww)]
        exact hw'
    · rintro ⟨w', hw'⟩
      rcases get?_set_cases s.ws w w' WStatus.done with hc | ⟨hc, rfl⟩
      · rw [hc] at hw'
        exact I8 ⟨w', hw'⟩
      · exact le_of_not_lt hn

theorem poolInv_run (items : List T) (f : T → R) (k : Nat)
    {s t : PoolState R}
    (hrun : Relation.ReflTransGen (PoolStep items f) s t)
    (hinv : PoolInv items f k s) : PoolInv items f k t := by
  induction hrun with
  | refl => exact hinv
  | tail _ hstep ih => exact poolInv_step items f k ih hstep

/-- C9: for every input list, every concurrency bound and every worker
function, any complete run of mapWithConcurrency — any interleaving of
claim, completion and exit steps of its worker pool that ends with all
workers done — leaves the output array equal to the sequential map of
the worker over the items: same length, and the element at each index is
the worker's result for the input item at that same index. Enrichment
results in enrichUnknownVulns are therefore aligned with their
vulnerability ids regardless of worker interleaving. -/
theorem C9_mapWithConcurrency (items : List T) (f : T → R)
    (concurrency : Nat) (s : PoolState R)
    (hrun : Relation.ReflTransGen (PoolStep items f)
      (initPool R (workerCount concurrency items.length) items.length) s)
    (hdone : PoolDone s) :
    s.out = items.map (fun t => some (f t)) ∧
    s.out.length = items.length := by
  have hinv := poolInv_run items f (workerCount concurrency items.length)
    hrun (poolInv_init items f (workerCount concurrency items.length))
  obtain ⟨I1, I2, I3, I4, I5, I6, I7, I8⟩ := hinv
  have hkpos : 0 < workerCount concurrency items.length :=
    lt_of_lt_of_le Nat.zero_lt_one (le_max_left 1 _)
  have hws0 : ∃ st, s.ws.get? 0 = some st := by
    cases h0 : s.ws.get? 0 with
    | none =>
      rw [List.get?_eq_none] at h0
      rw [I1] at h0
      exact absurd hkpos (not_lt_of_le h0)
    | some st => exact ⟨st, rfl⟩
  obtain ⟨st, hst⟩ := hws0
  have hstdone : st = WStatus.done := hdone st (List.get?_mem hst)
  have hlen_le : items.length ≤ s.nexti := I8 ⟨0, by rw [hst, hstdone]⟩
  have hnb : ∀ i w, s.ws.get? w ≠ some (WStatus.busy i) := by
    intro i w hw
    have := hdone _ (List.get?_mem hw)
    exact WStatus.noConfusion this
  have hwrite : ∀ i, i < items.length →
      s.out.get? i = some ((items.get? i).map f) := by
    intro i hi
    exact I6 i (lt_of_lt_of_le hi hlen_le) (fun w => hnb i w)
  refine ⟨?_, ?_⟩
  · refine List.ext_get? ?_
    intro i
    by_cases hi : i < items.length
    · rw [hwrite i hi, List.get?_map]
      cases hx : items.get? i with
      | none =>
        rw [List.get?_eq_none] at hx
        exact absurd hi (not_lt_of_le hx)
      | some x => rfl
    · rw [List.get?_eq_none.mpr (by rw [I2]; exact le_of_not_lt hi),
        List.get?_eq_none.mpr
          (by rw [List.length_map]; exact le_of_not_lt hi)]
  · exact I2

/-- Witness for C9: a complete three-step run (claim, finish, retire) of
one worker over the single item 5 with worker t + 1 ends with out equal
to the sequential map. -/
theorem C9_mapWithConcurrency_witness :
    (⟨1, [some 6], [WStatus.done]⟩ : PoolState Nat).out =
      [5].map (fun t => some (t + 1)) := by
  have h1 : PoolStep [5] (fun t => t + 1)
      (initPool Nat (workerCount 6 1) 1)
      (⟨1, [none], [WStatus.busy 0]⟩ : PoolState Nat) :=
    PoolStep.claim _ 0 rfl (by decide)
  have h2 : PoolStep [5] (fun t => t + 1)
      (⟨1, [none], [WStatus.busy 0]⟩ : PoolState Nat)
      (⟨1, [some 6], [WStatus.idle]⟩ : PoolState Nat) :=
    PoolStep.finish _ 0 0 rfl
  have h3 : PoolStep [5] (fun t => t + 1)
      (⟨1, [some 6], [WStatus.idle]⟩ : PoolState Nat)
      (⟨1, [some 6], [WStatus.done]⟩ : PoolState Nat) :=
    PoolStep.retire _ 0 rfl (by decide)
  have hrun : Relation.ReflTransGen (PoolStep [5] (fun t => t + 1))
      (initPool Nat (workerCount 6 1) 1)
      (⟨1, [some 6], [WStatus.done]⟩ : PoolState Nat) :=
    Relation.ReflTransGen.head h1
      (Relation.ReflTransGen.head h2 (Relation.ReflTransGen.single h3))
  have hdone : PoolDone (⟨1, [some 6], [WStatus.done]⟩ : PoolState Nat) := by
    intro st hst
    simpa using List.mem_singleton.mp hst
  exact (C9_mapWithConcurrency [5] (fun t => t + 1) 6 _ hrun hdone).1

end TsDep
